import Mathlib

/-!
# Verification of the SVG icon normalizer and injector

A shallow embedding of `scripts/normalize_icons.py`.  The XML element tree is
embedded as an inductive `Element`; the tree-level phases of `normalize_svg`
(metadata removal, root attribute rebuild, fill/stroke/style cleanup), the
serializer, the whitespace canonicalizer, the marker-region substitution of
`update_icons_js`, and the `build_entries`/`main` pipeline are all translated
as executable functions.  Parsing is a call into the XML library, so it is
abstracted as a `parse : String → Except String Element` parameter.
-/

set_option maxHeartbeats 1600000
set_option maxRecDepth 4096

namespace NormalizeIcons

/-! ## Basic Python string helpers (ASCII fragment) -/

/-- ASCII whitespace recognized by Python's regex `\s` and `str.strip`:
space, tab, newline, carriage return, vertical tab, form feed. -/
def isPyWs (c : Char) : Bool :=
  c = ' ' || c = '\t' || c = '\n' || c = '\r' || c = '\x0b' || c = '\x0c'

/-- Python `str.strip()` on a character list: whitespace dropped from both ends. -/
def pyStripL (l : List Char) : List Char :=
  ((l.dropWhile isPyWs).reverse.dropWhile isPyWs).reverse

/-- Python `str.strip()`. -/
def pyStrip (s : String) : String := String.mk (pyStripL s.data)

/-- Python `str.lower()` (ASCII lowercasing, which covers the values compared
against `none` and `currentcolor`). -/
def pyLower (s : String) : String := String.mk (s.data.map Char.toLower)

/-- True when every character of the list is whitespace. -/
def wsOnly (l : List Char) : Bool := l.all isPyWs

/-! ## The element tree -/

/-- An ElementTree node: tag, ordered attribute list (keys unique, insertion
ordered, as in a Python dict), text before the first child, children, and
tail text after the closing tag.  `None` and `""` are identified for text and
tail, which is sound because both serialize identically and the program never
distinguishes them. -/
inductive Element where
  | mk : String → List (String × String) → String → List Element → String → Element

def Element.tag : Element → String
  | .mk t _ _ _ _ => t

def Element.attrib : Element → List (String × String)
  | .mk _ a _ _ _ => a

def Element.text : Element → String
  | .mk _ _ tx _ _ => tx

def Element.children : Element → List Element
  | .mk _ _ _ ch _ => ch

def Element.tail : Element → String
  | .mk _ _ _ _ tl => tl

/-- The source's `_strip_ns`: drop a leading brace-wrapped namespace,
keeping the part after the first closing brace. -/
def strip_ns (tag : String) : String :=
  if tag.startsWith ("\x7b") then
    String.mk ((tag.data.dropWhile (fun c => c ≠ '\x7d')).drop 1)
  else tag

/-- The denylist of non-rendering metadata tags. -/
def META_TAGS : List String := ["title", "desc", "metadata"]

mutual
/-- Net effect of the source's metadata-removal loop (lines 39-44): every
element below the root whose namespace-stripped tag is in the denylist is
detached from its parent together with its whole subtree; the loop runs over
a snapshot with a precomputed child-to-parent map, so this is exactly a
recursive filter of the children lists.  The root itself has no parent and is
never removed. -/
def removeMeta : Element → Element
  | .mk t a tx ch tl => .mk t a tx (removeMetaList ch) tl

def removeMetaList : List Element → List Element
  | [] => []
  | c :: cs =>
    if META_TAGS.contains (strip_ns c.tag) then removeMetaList cs
    else removeMeta c :: removeMetaList cs
end

/-- The six fixed root attributes set by lines 47-53, with the given viewBox. -/
def rootAttrs (vb : String) : List (String × String) :=
  [("width", "16"), ("height", "16"), ("viewBox", vb),
   ("fill", "currentColor"), ("aria-hidden", "true"), ("focusable", "false")]

/-- The viewBox kept for the root: the original value unless it is missing or
falsy (empty), in which case the default box is used (`view_box or "0 0 16 16"`). -/
def keptViewBox (a : List (String × String)) : String :=
  match List.lookup ("viewBox") a with
  | some v => if v = "" then "0 0 16 16" else v
  | none => "0 0 16 16"

/-- Root attribute rebuild (lines 46-53): read viewBox, clear the attribute
dict, then set the six fixed attributes in insertion order. -/
def rebuildRootAttrib (e : Element) : Element :=
  .mk e.tag (rootAttrs (keptViewBox e.attrib)) e.text e.children e.tail

/-- Whether one attribute survives the cleanup loop of lines 55-62: fill and
stroke survive only with a trimmed, lowercased value of `none` or
`currentcolor`; `style` is always dropped; all other attributes are kept. -/
def keepAttr (kv : String × String) : Bool :=
  if kv.1 = "fill" || kv.1 = "stroke" then
    pyLower (pyStrip kv.2) = "none" || pyLower (pyStrip kv.2) = "currentcolor"
  else kv.1 != "style"

/-- One element's attribute cleanup; as with a dict pop, the surviving
entries keep their order and values. -/
def cleanAttrs (l : List (String × String)) : List (String × String) :=
  l.filter keepAttr

mutual
/-- The per-element cleanup pass of lines 55-62, applied to every element of
the tree (root included) by `root.iter()`. -/
def cleanTree : Element → Element
  | .mk t a tx ch tl => .mk t (cleanAttrs a) tx (cleanTreeList ch) tl

def cleanTreeList : List Element → List Element
  | [] => []
  | c :: cs => cleanTree c :: cleanTreeList cs
end

/-- The tree-level part of `normalize_svg` (lines 39-62): metadata removal,
then the root attribute rebuild, then the fill/stroke/style cleanup. -/
def normalizeTree (root : Element) : Element :=
  cleanTree (rebuildRootAttrib (removeMeta root))

mutual
/-- Preorder listing of a subtree, as produced by `elem.iter()`. -/
def subtreeElems : Element → List Element
  | .mk t a tx ch tl => .mk t a tx ch tl :: subtreeList ch

def subtreeList : List Element → List Element
  | [] => []
  | c :: cs => subtreeElems c ++ subtreeList cs
end

mutual
/-- No element strictly below this one carries a denylisted tag. -/
def noMetaBelow : Element → Bool
  | .mk _ _ _ ch _ => noMetaBelowList ch

def noMetaBelowList : List Element → Bool
  | [] => true
  | c :: cs =>
    !META_TAGS.contains (strip_ns c.tag) && noMetaBelow c && noMetaBelowList cs
end

/-! ## Serialization (ET.tostring with the default SVG namespace registered) -/

def SVG_NS : String := "http://www.w3.org/2000/svg"

/-- The brace-wrapped namespace marker that ElementTree prepends to tags of
parsed namespaced elements. -/
def svgNsBrace : String := "\x7b" ++ SVG_NS ++ "\x7d"

/-- ElementTree's attribute-value escaping: ampersand, angle brackets, double
quote, and the three whitespace characters CR, LF, TAB become references. -/
def escAttribChar (c : Char) : List Char :=
  if c = '&' then ("&amp;").data
  else if c = '<' then ("&lt;").data
  else if c = '>' then ("&gt;").data
  else if c = '"' then ("&quot;").data
  else if c = '\r' then ("&#13;").data
  else if c = '\n' then ("&#10;").data
  else if c = '\t' then ("&#09;").data
  else [c]

def escAttrib (s : String) : List Char := s.data.flatMap escAttribChar

/-- ElementTree's character-data escaping for text and tails: ampersand and
both angle brackets become references; whitespace is kept verbatim. -/
def escCdataChar (c : Char) : List Char :=
  if c = '&' then ("&amp;").data
  else if c = '<' then ("&lt;").data
  else if c = '>' then ("&gt;").data
  else [c]

def escCdata (s : String) : List Char := s.data.flatMap escCdataChar

/-- Serialized tag name: a tag in the registered default SVG namespace is
written without a qualifier, any other tag verbatim. -/
def serTagName (t : String) : List Char :=
  if svgNsBrace.data.isPrefixOf t.data then t.data.drop svgNsBrace.data.length
  else t.data

def serAttr (kv : String × String) : List Char :=
  ' ' :: kv.1.data ++ '=' :: '"' :: (escAttrib kv.2 ++ ['"'])

def serAttrs (l : List (String × String)) : List Char := l.flatMap serAttr

mutual
/-- Whether any element of the subtree carries the SVG namespace (which makes
the serializer declare `xmlns` on the root). -/
def anyNsElem : Element → Bool
  | .mk t _ _ ch _ => svgNsBrace.data.isPrefixOf t.data || anyNsList ch

def anyNsList : List Element → Bool
  | [] => false
  | c :: cs => anyNsElem c || anyNsList cs
end

mutual
/-- ElementTree serialization of one element: opening tag with the optional
`xmlns` declaration and the attributes in order, then either the short
`<tag />` form (no text, no children) or text, children and a closing tag,
followed by the escaped tail. -/
def serElem (withXmlns : Bool) : Element → List Char
  | .mk t a tx ch tl =>
    (if tx = "" && ch.isEmpty then
      '<' :: (serTagName t
        ++ (if withXmlns then (" xmlns=\"").data ++ SVG_NS.data ++ ['"'] else [])
        ++ serAttrs a) ++ (" />").data
     else
      '<' :: (serTagName t
        ++ (if withXmlns then (" xmlns=\"").data ++ SVG_NS.data ++ ['"'] else [])
        ++ serAttrs a) ++ '>' :: (escCdata tx ++ serList ch
        ++ '<' :: '/' :: (serTagName t ++ ['>'])))
      ++ escCdata tl

def serList : List Element → List Char
  | [] => []
  | c :: cs => serElem false c ++ serList cs
end

/-- ET.tostring of the root: the namespace is declared there when any element
of the tree uses it. -/
def serTop (e : Element) : List Char := serElem (anyNsElem e) e

/-! ## Whitespace canonicalization (lines 64-66) -/

/-- One left-to-right pass of Python's `re.sub(r">\s*<", ">\n<", svg)`: a
match starts at a `>` whose following whitespace run is terminated by a `<`;
the match (including that `<`) is replaced by `>`, newline, `<`, and scanning
resumes after the consumed `<`.  At a `>` not followed by
whitespace-then-`<` no match starts there and scanning moves on. -/
def collapseWsFuel : Nat → List Char → List Char
  | 0, l => l
  | _ + 1, [] => []
  | fuel + 1, c :: cs =>
    if c = '>' then
      if (cs.dropWhile isPyWs).head? = some '<' then
        '>' :: '\n' :: '<' :: collapseWsFuel fuel (cs.dropWhile isPyWs).tail
      else '>' :: collapseWsFuel fuel cs
    else c :: collapseWsFuel fuel cs

/-- The substitution itself; one unit of fuel is spent per consumed
character, so the input length is always enough. -/
def collapseWs (l : List Char) : List Char := collapseWsFuel l.length l

/-- The whole of lines 65-66: collapse inter-tag whitespace, then strip. -/
def canonicalizeWs (l : List Char) : List Char := pyStripL (collapseWs l)

/-- Lines 33-66, `normalize_svg`.  Parsing is a call into the XML library and
is abstracted as the `parse` parameter; a parse failure is re-raised as a
ValueError whose message carries the "Failed to parse SVG: " prelude, and on
a parsed tree the transform, serialization and whitespace cleanup total
functions run. -/
def normalize_svg (parse : String → Except String Element) (svg_text : String) :
    Except String String :=
  match parse svg_text with
  | .error e => .error ("Failed to parse SVG: " ++ e)
  | .ok root => .ok (String.mk (canonicalizeWs (serTop (normalizeTree root))))

/-! ## Reparse model and serialization well-formedness -/

/-- True when the character list contains no closing angle bracket. -/
def noGt (l : List Char) : Bool := l.all (fun c => !(c = '>'))

mutual
/-- Well-formedness used by the serialization analysis: serialized tag names
and attribute names contain no closing angle bracket (true of every real
SVG document). -/
def wfElem : Element → Bool
  | .mk t a _ ch _ =>
    noGt (serTagName t) && a.all (fun kv => noGt kv.1.data) && wfElemList ch

def wfElemList : List Element → Bool
  | [] => true
  | c :: cs => wfElem c && wfElemList cs
end

mutual
/-- Modelled from the spec: the parsed form (section 3) recovered by the XML
library from the canonical serialized output of a non-root element.  The
canonicalizer leaves exactly one newline in each whitespace-only inter-tag
gap, so whitespace-only text and tails come back as a single newline,
non-whitespace text and tails survive verbatim, and an element serialized in
the short form has no text. -/
def reparseChild : Element → Element
  | .mk t a tx ch tl =>
    .mk t a
      (if tx = "" && ch.isEmpty then ""
       else if wsOnly tx.data then "\n" else tx)
      (reparseChildList ch)
      (if wsOnly tl.data then "\n" else tl)

def reparseChildList : List Element → List Element
  | [] => []
  | c :: cs => reparseChild c :: reparseChildList cs
end

/-- Modelled from the spec: the reparsed root element; the canonicalizer
strips trailing whitespace and the parser keeps no tail on the root. -/
def reparseRoot : Element → Element
  | .mk t a tx ch _ =>
    .mk t a
      (if tx = "" && ch.isEmpty then ""
       else if wsOnly tx.data then "\n" else tx)
      (reparseChildList ch) ""

/-! ## Marker-region substitution (update_icons_js, lines 91-105) -/

def START_MARKER : String := "  // BEGIN GENERATED ICONS (scripts/normalize_icons.py)"

def END_MARKER : String := "  // END GENERATED ICONS"

/-- First occurrence of `pat` in a list: `some (pre, post)` when the list is
`pre ++ pat ++ post` with minimal `pre`, else `none`. -/
def splitFirst (pat : List Char) : List Char → Option (List Char × List Char)
  | [] => if pat.isEmpty then some ([], []) else none
  | c :: cs =>
    if pat.isPrefixOf (c :: cs) then some ([], (c :: cs).drop pat.length)
    else
      match splitFirst pat cs with
      | some (pre, post) => some (c :: pre, post)
      | none => none

/-- Fuelled worker for the regex substitution of
`START_MARKER .*? END_MARKER` (DOTALL) with a plain replacement: each
non-overlapping minimal region from a begin marker to the next end marker is
replaced by `repl`, scanning left to right.  This is the special case of the
template substitution below in which the parsed template is fully literal. -/
def subRegionsFuel (repl : List Char) : Nat → List Char → List Char
  | 0, l => l
  | fuel + 1, l =>
    match splitFirst START_MARKER.data l with
    | none => l
    | some (pre, rest) =>
      match splitFirst END_MARKER.data rest with
      | none => l
      | some (_, post) => pre ++ repl ++ subRegionsFuel repl fuel post

/-- The substitution itself; the input's length bounds the number of
replaced regions, so it is enough fuel. -/
def subRegions (repl l : List Char) : List Char := subRegionsFuel repl l.length l

/-- The replacement text `START_MARKER \n entries \n END_MARKER`. -/
def replacementText (entries : String) : List Char :=
  START_MARKER.data ++ '\n' :: (entries.data ++ '\n' :: END_MARKER.data)

/-- ASCII decimal digit. -/
def isDigitC (c : Char) : Bool := '0' ≤ c && c ≤ '9'

/-- ASCII octal digit. -/
def isOctC (c : Char) : Bool := '0' ≤ c && c ≤ '7'

/-- ASCII letter. -/
def isAsciiAlpha (c : Char) : Bool := ('a' ≤ c && c ≤ 'z') || ('A' ≤ c && c ≤ 'Z')

def digitVal (c : Char) : Nat := c.toNat - ('0').toNat

/-- Python str.isidentifier, ASCII fragment: a letter or underscore followed
by letters, digits and underscores. -/
def isIdentASCII : List Char → Bool
  | [] => false
  | c :: cs => (isAsciiAlpha c || c = '_')
      && cs.all (fun d => isAsciiAlpha d || isDigitC d || d = '_')

/-- Continuation of a digit run accepted by Python int(): decimal digits
with single underscores strictly between digits. -/
def pyIntDigitsRest : List Char → Bool
  | [] => true
  | ['_'] => false
  | '_' :: c :: cs => isDigitC c && pyIntDigitsRest cs
  | c :: cs => isDigitC c && pyIntDigitsRest cs

/-- A nonempty digit run accepted by Python int() after the optional sign. -/
def pyIntDigits : List Char → Bool
  | [] => false
  | c :: cs => isDigitC c && pyIntDigitsRest cs

def natOfDigits (l : List Char) : Nat :=
  l.foldl (fun acc c => acc * 10 + digitVal c) 0

/-- Python int() applied to a group name, ASCII fragment: surrounding
whitespace is stripped, one sign is allowed, underscores may separate
digits.  The source rejects a negative index with the same error as an
unparsable name, so both map to none. -/
def pyIntOfName (l : List Char) : Option Nat :=
  match pyStripL l with
  | '+' :: rest =>
    if pyIntDigits rest then some (natOfDigits (rest.filter (fun c => !(c = '_'))))
    else none
  | '-' :: _ => none
  | rest =>
    if pyIntDigits rest then some (natOfDigits (rest.filter (fun c => !(c = '_'))))
    else none

/-- One parsed piece of a replacement template: literal characters, or a
reference to group 0 (the whole match; the marker pattern has no other
groups, every other reference is rejected while parsing). -/
inductive RTmplItem where
  | lit : List Char → RTmplItem
  | grp : RTmplItem

/-- The tokenizer's getuntil(">") as used for a group name: characters are
collected up to the first unescaped closing angle (a backslash token carries
the following character with it); a lone trailing backslash, a missing name
and an unterminated name are reported as in the source. -/
def getuntilGt : List Char → List Char → Except String (List Char × List Char)
  | acc, [] =>
    if acc.isEmpty then .error "missing group name"
    else .error "missing >, unterminated name"
  | acc, c :: rest =>
    if c = '>' then
      if acc.isEmpty then .error "missing group name"
      else .ok (acc.reverse, rest)
    else if c = '\\' then
      match rest with
      | [] => .error "bad escape (end of pattern)"
      | d :: rest2 => getuntilGt (d :: '\\' :: acc) rest2
    else getuntilGt (c :: acc) rest

/-- Consume up to two octal digits after a leading backslash-zero, returning
their value and the remainder. -/
def octTake2 : List Char → Nat × List Char
  | [] => (0, [])
  | [e1] => if isOctC e1 then (digitVal e1, []) else (0, [e1])
  | e1 :: e2 :: rest =>
    if isOctC e1 then
      if isOctC e2 then (digitVal e1 * 8 + digitVal e2, rest)
      else (digitVal e1, e2 :: rest)
    else (0, e1 :: e2 :: rest)

/-- Prepend one parsed item to the result of parsing the remainder. -/
def consTmpl (it : RTmplItem) :
    Except String (List RTmplItem) → Except String (List RTmplItem)
  | .error e => .error e
  | .ok items => .ok (it :: items)

/-- Fuelled worker for re's parse_template, specialised to the zero-group
marker pattern.  Escapes follow the source: backslash-g group references by
name or number (only 0 exists), numeric group references and octal escapes
after a digit, the fixed character escapes, an error for any other escaped
ASCII letter, and any other escaped character kept together with its
backslash.  One unit of fuel per consumed leading character is enough. -/
def parseTemplateFuel : Nat → List Char → Except String (List RTmplItem)
  | 0, _ => .ok []
  | _ + 1, [] => .ok []
  | fuel + 1, c :: cs =>
    if c = '\\' then
      match cs with
      | [] => .error "bad escape (end of pattern)"
      | d :: ds =>
        if d = 'g' then
          match ds with
          | '<' :: es =>
            match getuntilGt [] es with
            | .error e => .error e
            | .ok (name, after) =>
              if isIdentASCII name then
                .error (String.mk (("unknown group name ").data ++ name))
              else
                match pyIntOfName name with
                | none =>
                  .error (String.mk (("bad character in group name ").data ++ name))
                | some n =>
                  if n = 0 then consTmpl RTmplItem.grp (parseTemplateFuel fuel after)
                  else .error (String.mk (("invalid group reference ").data
                    ++ (Nat.repr n).data))
          | _ => .error "missing <"
        else if d = '0' then
          consTmpl (RTmplItem.lit [Char.ofNat (octTake2 ds).1])
            (parseTemplateFuel fuel (octTake2 ds).2)
        else if isDigitC d then
          match ds with
          | e1 :: e2 :: rest2 =>
            if isDigitC e1 then
              if isOctC d && isOctC e1 && isOctC e2 then
                if 255 < digitVal d * 64 + digitVal e1 * 8 + digitVal e2 then
                  .error "octal escape value outside of range 0-0o377"
                else
                  consTmpl (RTmplItem.lit
                      [Char.ofNat (digitVal d * 64 + digitVal e1 * 8 + digitVal e2)])
                    (parseTemplateFuel fuel rest2)
              else .error (String.mk (("invalid group reference ").data
                ++ (Nat.repr (digitVal d * 10 + digitVal e1)).data))
            else .error (String.mk (("invalid group reference ").data
              ++ (Nat.repr (digitVal d)).data))
          | [e1] =>
            if isDigitC e1 then
              .error (String.mk (("invalid group reference ").data
                ++ (Nat.repr (digitVal d * 10 + digitVal e1)).data))
            else .error (String.mk (("invalid group reference ").data
              ++ (Nat.repr (digitVal d)).data))
          | [] => .error (String.mk (("invalid group reference ").data
              ++ (Nat.repr (digitVal d)).data))
        else if d = 'a' then
          consTmpl (RTmplItem.lit [Char.ofNat 7]) (parseTemplateFuel fuel ds)
        else if d = 'b' then
          consTmpl (RTmplItem.lit [Char.ofNat 8]) (parseTemplateFuel fuel ds)
        else if d = 'f' then
          consTmpl (RTmplItem.lit [Char.ofNat 12]) (parseTemplateFuel fuel ds)
        else if d = 'n' then
          consTmpl (RTmplItem.lit ['\n']) (parseTemplateFuel fuel ds)
        else if d = 'r' then
          consTmpl (RTmplItem.lit ['\r']) (parseTemplateFuel fuel ds)
        else if d = 't' then
          consTmpl (RTmplItem.lit ['\t']) (parseTemplateFuel fuel ds)
        else if d = 'v' then
          consTmpl (RTmplItem.lit [Char.ofNat 11]) (parseTemplateFuel fuel ds)
        else if d = '\\' then
          consTmpl (RTmplItem.lit ['\\']) (parseTemplateFuel fuel ds)
        else if isAsciiAlpha d then
          .error (String.mk (("bad escape \\").data ++ [d]))
        else consTmpl (RTmplItem.lit ['\\', d]) (parseTemplateFuel fuel ds)
    else consTmpl (RTmplItem.lit [c]) (parseTemplateFuel fuel cs)

/-- re's parse_template on the replacement string; the string's length
bounds the number of parsing steps, so it is enough fuel. -/
def parse_template (l : List Char) : Except String (List RTmplItem) :=
  parseTemplateFuel l.length l

/-- Expansion of a parsed template against one match: literal pieces stay,
a group-0 reference becomes the whole matched region. -/
def expandTemplate (items : List RTmplItem) (matched : List Char) : List Char :=
  items.flatMap (fun it =>
    match it with
    | .lit l => l
    | .grp => matched)

/-- Fuelled worker for `pattern.sub` with a parsed template: every
non-overlapping minimal marker-bounded region is replaced by the template
expanded against that region, scanning left to right. -/
def subRegionsTFuel (items : List RTmplItem) : Nat → List Char → List Char
  | 0, l => l
  | fuel + 1, l =>
    match splitFirst START_MARKER.data l with
    | none => l
    | some (pre, rest) =>
      match splitFirst END_MARKER.data rest with
      | none => l
      | some (mid, post) =>
        pre ++ expandTemplate items (START_MARKER.data ++ mid ++ END_MARKER.data)
          ++ subRegionsTFuel items fuel post

/-- The template substitution; the input's length bounds the number of
replaced regions, so it is enough fuel. -/
def subRegionsT (items : List RTmplItem) (l : List Char) : List Char :=
  subRegionsTFuel items l.length l

/-! ## File system model and the pipeline -/

/-- The file system as the program sees it: the icon source directory as a
name-to-content association, and the current content of icons.js. -/
structure FS where
  icons : List (String × String)
  iconsJs : String
deriving DecidableEq

/-- Lines 91-105, `update_icons_js`, with the file write made explicit: find
a marker-bounded region (raising when the search fails), parse the
replacement string as a re.sub template (whose escape and group-reference
errors propagate), substitute every region by the expanded template, and
write the file back only when the result differs from the current content,
reporting whether a write occurred. -/
def update_icons_js (st : FS) (entries : String) : FS × Except String Bool :=
  match splitFirst START_MARKER.data st.iconsJs.data with
  | none => (st, .error ("icons.js markers not found"))
  | some (_, rest) =>
    match splitFirst END_MARKER.data rest with
    | none => (st, .error ("icons.js markers not found"))
    | some _ =>
      match parse_template (replacementText entries) with
      | .error e => (st, .error e)
      | .ok items =>
        if String.mk (subRegionsT items st.iconsJs.data) = st.iconsJs then
          (st, .ok false)
        else
          ({ st with iconsJs := String.mk (subRegionsT items st.iconsJs.data) },
            .ok true)

/-- The fixed stem-to-key mapping, in dict insertion order. -/
def KEY_MAP : List (String × String) :=
  [("ns", "nintendo"), ("ps", "playstation"), ("xbox", "xbox")]

/-- Python `str.splitlines` (ASCII line boundaries: LF, CR, CRLF, VT, FF,
FS, GS, RS); no trailing empty line for a trailing terminator. -/
def pySplitlinesGo : List Char → List Char → List String
  | acc, [] => if acc.isEmpty then [] else [String.mk acc.reverse]
  | acc, '\r' :: '\n' :: rest => String.mk acc.reverse :: pySplitlinesGo [] rest
  | acc, '\r' :: rest => String.mk acc.reverse :: pySplitlinesGo [] rest
  | acc, '\n' :: rest => String.mk acc.reverse :: pySplitlinesGo [] rest
  | acc, '\x0b' :: rest => String.mk acc.reverse :: pySplitlinesGo [] rest
  | acc, '\x0c' :: rest => String.mk acc.reverse :: pySplitlinesGo [] rest
  | acc, '\x1c' :: rest => String.mk acc.reverse :: pySplitlinesGo [] rest
  | acc, '\x1d' :: rest => String.mk acc.reverse :: pySplitlinesGo [] rest
  | acc, '\x1e' :: rest => String.mk acc.reverse :: pySplitlinesGo [] rest
  | acc, c :: rest => pySplitlinesGo (c :: acc) rest

def pySplitlines (s : String) : List String := pySplitlinesGo [] s.data

/-- Append a string to the last element of a list. -/
def appendToLast (s : String) : List String → List String
  | [] => []
  | [a] => [a ++ s]
  | a :: rest => a :: appendToLast s rest

/-- Lines 76-86: format one icon entry; a single line renders inline, a
multi-line SVG indents continuation lines four spaces except the dedented
closing tag, and the final line carries the closing backtick and comma. -/
def formatEntry (key svg : String) : String :=
  let lines0 := pySplitlines svg
  let lines := if lines0.isEmpty then [svg] else lines0
  match lines with
  | [only] => "  " ++ key ++ ": `" ++ only ++ "`,"
  | first :: rest =>
    let entryRest := rest.map (fun line =>
      (if line.startsWith ("</svg") then "  " else "    ") ++ line)
    String.intercalate "\n" (appendToLast ("`,") (("  " ++ key ++ ": `" ++ first) :: entryRest))
  | [] => ""

/-- Lines 69-88 body: process the stems in mapping order; a missing source
file or a parse failure aborts with that error. -/
def build_entries_list (parse : String → Except String Element)
    (icons : List (String × String)) :
    List (String × String) → Except String (List String)
  | [] => .ok []
  | (stem, key) :: rest =>
    match List.lookup (stem ++ ".svg") icons with
    | none => .error ("Missing icon: " ++ stem ++ ".svg")
    | some raw =>
      match normalize_svg parse raw with
      | .error e => .error e
      | .ok svg =>
        match build_entries_list parse icons rest with
        | .error e => .error e
        | .ok tailEntries => .ok (formatEntry key svg :: tailEntries)

/-- Lines 69-88, `build_entries`: all entries joined by one blank line. -/
def build_entries (parse : String → Except String Element) (st : FS) :
    Except String String :=
  match build_entries_list parse st.icons KEY_MAP with
  | .error e => .error e
  | .ok entries => .ok (String.intercalate "\n\n" entries)

/-- Lines 108-115, `main`, with the file system threaded: build every entry,
then inject; an exception anywhere propagates and the file system is the
input one, so no partial write is possible. -/
def main (parse : String → Except String Element) (st : FS) :
    FS × Except String Bool :=
  match build_entries parse st with
  | .error e => (st, .error e)
  | .ok entries => update_icons_js st entries

end NormalizeIcons

namespace NormalizeIcons

/-! ## Theorems -/

/-- Helper: the attribute list of a normalized tree's root is exactly the six
rebuilt attributes. -/
theorem normalizeTree_attrib (root : Element) :
    (normalizeTree root).attrib = rootAttrs (keptViewBox root.attrib) := by
  cases root with
  | mk t a tx ch tl => rfl

/-- C1: for every parsed input tree, the root element of the normalized output
has exactly the six attributes width="16", height="16", viewBox,
fill="currentColor", aria-hidden="true", focusable="false", in that insertion
order and no others, where viewBox is the original root viewBox if present
(and non-empty) and otherwise "0 0 16 16". -/
theorem root_attribute_closure (root : Element) :
    (normalizeTree root).attrib =
      [("width", "16"), ("height", "16"),
       ("viewBox", match List.lookup ("viewBox") root.attrib with
         | some v => if v = "" then "0 0 16 16" else v
         | none => "0 0 16 16"),
       ("fill", "currentColor"), ("aria-hidden", "true"), ("focusable", "false")] := by
  rw [normalizeTree_attrib]
  rfl

/-- C10: a viewBox attribute that is present but equal to the empty string is
not preserved; the output viewBox is the default "0 0 16 16". -/
theorem empty_viewBox_defaulted (root : Element)
    (h : List.lookup ("viewBox") root.attrib = some "") :
    List.lookup ("viewBox") (normalizeTree root).attrib = some ("0 0 16 16") := by
  rw [normalizeTree_attrib]
  have hv : keptViewBox root.attrib = "0 0 16 16" := by
    unfold keptViewBox
    rw [h]
    rfl
  rw [hv]
  rfl

/-- Witness for C10 at a concrete tree with an empty viewBox. -/
theorem empty_viewBox_defaulted_witness :
    List.lookup ("viewBox")
      (normalizeTree (.mk "svg" [("viewBox", "")] "" [] "")).attrib
      = some ("0 0 16 16") :=
  empty_viewBox_defaulted (.mk "svg" [("viewBox", "")] "" [] "") (by rfl)

/-! ### Metadata removal -/

theorem removeMeta_tag (c : Element) : (removeMeta c).tag = c.tag := by
  cases c
  rfl

theorem cleanTree_tag (c : Element) : (cleanTree c).tag = c.tag := by
  cases c
  rfl

mutual
theorem noMetaBelow_removeMeta : ∀ e : Element, noMetaBelow (removeMeta e) = true
  | .mk t a tx ch tl => by
      have h := noMetaBelowList_removeMetaList ch
      simpa only [removeMeta, noMetaBelow] using h

theorem noMetaBelowList_removeMetaList :
    ∀ l : List Element, noMetaBelowList (removeMetaList l) = true
  | [] => rfl
  | c :: cs => by
      by_cases hc : META_TAGS.contains (strip_ns c.tag) = true
      · simpa only [removeMetaList, if_pos hc] using noMetaBelowList_removeMetaList cs
      · rw [removeMetaList, if_neg hc]
        simp only [noMetaBelowList, removeMeta_tag, Bool.and_eq_true,
          Bool.not_eq_true']
        exact ⟨⟨by simpa using hc, noMetaBelow_removeMeta c⟩,
          noMetaBelowList_removeMetaList cs⟩
end

mutual
theorem noMetaBelow_cleanTree : ∀ e : Element, noMetaBelow (cleanTree e) = noMetaBelow e
  | .mk t a tx ch tl => noMetaBelowList_cleanTreeList ch

theorem noMetaBelowList_cleanTreeList :
    ∀ l : List Element, noMetaBelowList (cleanTreeList l) = noMetaBelowList l
  | [] => rfl
  | c :: cs => by
      simp only [cleanTreeList, noMetaBelowList, cleanTree_tag,
        noMetaBelow_cleanTree c, noMetaBelowList_cleanTreeList cs]
end

mutual
theorem subtree_tags_cleanTree :
    ∀ e : Element, (subtreeElems (cleanTree e)).map Element.tag
      = (subtreeElems e).map Element.tag
  | .mk t a tx ch tl => by
      simp only [cleanTree, subtreeElems, List.map_cons, Element.tag]
      rw [subtree_tags_cleanTreeList ch]

theorem subtree_tags_cleanTreeList :
    ∀ l : List Element, (subtreeList (cleanTreeList l)).map Element.tag
      = (subtreeList l).map Element.tag
  | [] => rfl
  | c :: cs => by
      simp only [cleanTreeList, subtreeList, List.map_append]
      rw [subtree_tags_cleanTree c, subtree_tags_cleanTreeList cs]
end

/-- C2: no denylisted element (title, desc, metadata, namespace-stripped)
survives anywhere strictly below the root of the normalized tree, and the
later passes (attribute rebuild and cleanup) neither remove nor add elements:
the tag structure of the output is exactly that of the metadata-removal
result, in which each matched element was discarded with its whole subtree. -/
theorem metadata_removed (root : Element) :
    noMetaBelow (normalizeTree root) = true ∧
    (subtreeElems (normalizeTree root)).map Element.tag
      = (subtreeElems (removeMeta root)).map Element.tag := by
  constructor
  · rw [normalizeTree, noMetaBelow_cleanTree]
    have hreb : noMetaBelow (rebuildRootAttrib (removeMeta root))
        = noMetaBelow (removeMeta root) := by
      cases hroot : removeMeta root
      rfl
    rw [hreb]
    exact noMetaBelow_removeMeta root
  · rw [normalizeTree, subtree_tags_cleanTree]
    cases hroot : removeMeta root
    rfl

/-! ### Fill, stroke and style cleanup -/

theorem keepAttr_iff (kv : String × String) :
    keepAttr kv = true ↔
      ((kv.1 = "fill" ∨ kv.1 = "stroke") →
        pyLower (pyStrip kv.2) = "none" ∨ pyLower (pyStrip kv.2) = "currentcolor") ∧
      kv.1 ≠ "style" := by
  obtain ⟨k, v⟩ := kv
  by_cases hfs : k = "fill" ∨ k = "stroke"
  · have hb : (decide (k = "fill") || decide (k = "stroke")) = true := by
      rcases hfs with h | h <;> simp [h]
    have hstyle : k ≠ "style" := by
      rcases hfs with h | h <;> (subst h; intro hx; exact absurd hx (by decide))
    simp [keepAttr, hb, hstyle, hfs]
  · have hb : (decide (k = "fill") || decide (k = "stroke")) = false := by
      push_neg at hfs
      simp [hfs.1, hfs.2]
    simp [keepAttr, hb, hfs]

theorem lookup_style_cleanAttrs (l : List (String × String)) :
    List.lookup ("style") (cleanAttrs l) = none := by
  induction l with
  | nil => rfl
  | cons kv rest ih =>
    obtain ⟨k, v⟩ := kv
    by_cases hkeep : keepAttr (k, v) = true
    · have hk : k ≠ "style" := ((keepAttr_iff (k, v)).mp hkeep).2
      have hbeq : (("style" : String) == k) = false := by
        simp [hk.symm]
      simp only [cleanAttrs, List.filter_cons, hkeep, if_true, List.lookup, hbeq]
      exact ih
    · simp only [cleanAttrs, List.filter_cons, hkeep, if_false, Bool.false_eq_true]
      exact ih

mutual
theorem subtree_attribs_cleanTree :
    ∀ e : Element, (subtreeElems (cleanTree e)).map Element.attrib
      = ((subtreeElems e).map Element.attrib).map cleanAttrs
  | .mk t a tx ch tl => by
      simp only [cleanTree, subtreeElems, List.map_cons, Element.attrib]
      rw [subtree_attribs_cleanTreeList ch]

theorem subtree_attribs_cleanTreeList :
    ∀ l : List Element, (subtreeList (cleanTreeList l)).map Element.attrib
      = ((subtreeList l).map Element.attrib).map cleanAttrs
  | [] => rfl
  | c :: cs => by
      simp only [cleanTreeList, subtreeList, List.map_append]
      rw [subtree_attribs_cleanTree c, subtree_attribs_cleanTreeList cs]
end

/-- Every element of a fully cleaned tree carries a cleaned attribute list. -/
theorem attrib_of_mem_cleanTree (x e : Element)
    (he : e ∈ subtreeElems (cleanTree x)) :
    ∃ l : List (String × String), e.attrib = cleanAttrs l := by
  have hmem : e.attrib ∈ (subtreeElems (cleanTree x)).map Element.attrib :=
    List.mem_map_of_mem Element.attrib he
  rw [subtree_attribs_cleanTree] at hmem
  obtain ⟨l, _, hl⟩ := List.mem_map.mp hmem
  exact ⟨l, hl.symm⟩

/-- C3: in the normalized output, no element retains a style attribute; a fill
or stroke attribute survives on an element exactly when it was present with a
trimmed, lowercased value of "none" or "currentcolor", in which case its value
is untouched; every element's attribute list is the cleanup filter of the
corresponding pre-cleanup list, and the filter is characterized pointwise. -/
theorem fill_stroke_style_cleanup (root : Element) :
    (∀ e ∈ subtreeElems (normalizeTree root),
        List.lookup ("style") e.attrib = none ∧
        ∀ kv ∈ e.attrib, kv.1 = "fill" ∨ kv.1 = "stroke" →
          pyLower (pyStrip kv.2) = "none" ∨ pyLower (pyStrip kv.2) = "currentcolor") ∧
    (subtreeElems (normalizeTree root)).map Element.attrib
      = ((subtreeElems (rebuildRootAttrib (removeMeta root))).map Element.attrib).map
          cleanAttrs ∧
    ∀ l : List (String × String), ∀ kv : String × String,
      kv ∈ cleanAttrs l ↔ kv ∈ l ∧
        ((kv.1 = "fill" ∨ kv.1 = "stroke") →
          pyLower (pyStrip kv.2) = "none" ∨ pyLower (pyStrip kv.2) = "currentcolor") ∧
        kv.1 ≠ "style" := by
  refine ⟨?_, ?_, ?_⟩
  · intro e he
    obtain ⟨l, hl⟩ := attrib_of_mem_cleanTree _ e he
    constructor
    · rw [hl]
      exact lookup_style_cleanAttrs l
    · intro kv hkv hfs
      rw [hl] at hkv
      have := (List.mem_filter.mp hkv).2
      exact ((keepAttr_iff kv).mp this).1 hfs
  · exact subtree_attribs_cleanTree _
  · intro l kv
    rw [cleanAttrs, List.mem_filter, keepAttr_iff]

/-- Witness for C3: from a tree whose root carries fill="#FF0000",
fill-case value kept and style removed on the normalized root element. -/
theorem fill_stroke_style_cleanup_witness :
    List.lookup ("style")
      (Element.mk "svg" (rootAttrs "0 0 16 16") "" [] "").attrib = none ∧
    (pyLower (pyStrip "currentColor") = "none" ∨
      pyLower (pyStrip "currentColor") = "currentcolor") := by
  have h := fill_stroke_style_cleanup
    (Element.mk "svg" [("fill", "#FF0000"), ("style", "color:red")] "" [] "")
  have hmem : (Element.mk "svg" (rootAttrs "0 0 16 16") "" [] "")
      ∈ subtreeElems (normalizeTree
        (Element.mk "svg" [("fill", "#FF0000"), ("style", "color:red")] "" [] "")) := by
    exact List.mem_cons_self _ _
  have he := h.1 _ hmem
  refine ⟨he.1, he.2 ("fill", "currentColor") ?_ (Or.inl rfl)⟩
  show ("fill", "currentColor") ∈ rootAttrs "0 0 16 16"
  simp [rootAttrs]

/-! ### Parse failure contract -/

/-- C7: normalize_svg fails, with the wrapped malformed-input message, exactly
when the input does not parse as an element tree; on a parsed tree it returns
the normalized text, and there is no other failure mode and no partial
recovery. -/
theorem normalize_svg_error_contract (parse : String → Except String Element)
    (svg_text : String) :
    match parse svg_text with
    | .error e => normalize_svg parse svg_text = .error ("Failed to parse SVG: " ++ e)
    | .ok root => normalize_svg parse svg_text
        = .ok (String.mk (canonicalizeWs (serTop (normalizeTree root)))) := by
  cases h : parse svg_text <;> simp [normalize_svg, h]

/-! ### All-or-nothing pipeline -/

/-- C6: the pipeline is all-or-nothing: whenever any step fails (missing
source file, parse failure, or markers not found) main returns that error
with the file system unchanged; the icon sources are never written; and
whenever the output state differs from the input state, the entry build
succeeded for every icon and the run reports a successful write. -/
theorem pipeline_all_or_nothing (parse : String → Except String Element) (st : FS) :
    (∀ e : String, (main parse st).2 = .error e → (main parse st).1 = st) ∧
    (main parse st).1.icons = st.icons ∧
    ((main parse st).1 ≠ st → ∃ entries, build_entries parse st = .ok entries ∧
      (main parse st).2 = .ok true) := by
  unfold main update_icons_js
  cases hb : build_entries parse st with
  | error e => simp
  | ok entries =>
    cases h1 : splitFirst START_MARKER.data st.iconsJs.data with
    | none => simp
    | some pr =>
      obtain ⟨pre, rest⟩ := pr
      cases h2 : splitFirst END_MARKER.data rest with
      | none => simp [h2]
      | some q =>
        simp only [h2]
        cases hpt : parse_template (replacementText entries) with
        | error e => simp
        | ok items =>
          simp only [hpt]
          by_cases heq : String.mk (subRegionsT items st.iconsJs.data) = st.iconsJs
          · rw [if_pos heq]
            exact ⟨fun e2 h => Except.noConfusion h, rfl, fun hne => absurd rfl hne⟩
          · rw [if_neg heq]
            exact ⟨fun e2 h => Except.noConfusion h, rfl, fun _ => ⟨entries, rfl, rfl⟩⟩

/-- Witness for C6: with no icon files at all, main aborts with the missing
source error and leaves the file system exactly as it was. -/
theorem pipeline_all_or_nothing_witness :
    (main (fun _ => .error "bad") ⟨[], "x"⟩).1 = ⟨[], "x"⟩ :=
  (pipeline_all_or_nothing (fun _ => .error "bad") ⟨[], "x"⟩).1
    "Missing icon: ns.svg" (by rfl)

/-! ### First-occurrence search -/

theorem isPrefixOf_exists {pat l : List Char} (h : pat.isPrefixOf l = true) :
    l = pat ++ l.drop pat.length := by
  induction pat generalizing l with
  | nil => simp
  | cons a as ih =>
    cases l with
    | nil => simp [List.isPrefixOf] at h
    | cons b bs =>
      simp only [List.isPrefixOf, Bool.and_eq_true, beq_iff_eq] at h
      obtain ⟨hab, hrest⟩ := h
      have := ih hrest
      simp only [List.length_cons, List.drop_succ_cons, List.cons_append]
      rw [hab, ← this]

theorem isPrefixOf_append (pat t : List Char) : pat.isPrefixOf (pat ++ t) = true := by
  induction pat with
  | nil => cases t <;> rfl
  | cons a as ih => simpa [List.isPrefixOf] using ih

theorem isPrefixOf_extend {pat a : List Char} (t : List Char)
    (h : pat.isPrefixOf a = true) : pat.isPrefixOf (a ++ t) = true := by
  have hd := isPrefixOf_exists h
  rw [hd, List.append_assoc]
  exact isPrefixOf_append pat _

theorem isPrefixOf_restrict {pat a : List Char} (t : List Char)
    (hlen : pat.length ≤ a.length) (h : pat.isPrefixOf (a ++ t) = true) :
    pat.isPrefixOf a = true := by
  induction pat generalizing a with
  | nil => cases a <;> rfl
  | cons p ps ih =>
    cases a with
    | nil => simp at hlen
    | cons b bs =>
      simp only [List.cons_append, List.isPrefixOf, Bool.and_eq_true] at h ⊢
      exact ⟨h.1, ih (by simpa using hlen) h.2⟩

theorem splitFirst_decomp {pat : List Char} :
    ∀ {l pre post : List Char}, splitFirst pat l = some (pre, post) →
      l = pre ++ pat ++ post := by
  intro l
  induction l with
  | nil =>
    intro pre post h
    by_cases hp : pat.isEmpty = true
    · simp only [splitFirst, hp, if_true, Option.some.injEq, Prod.mk.injEq] at h
      obtain ⟨h1, h2⟩ := h
      subst h1
      subst h2
      simp [List.isEmpty_iff.mp hp]
    · simp [splitFirst, hp] at h
  | cons c cs ih =>
    intro pre post h
    simp only [splitFirst] at h
    by_cases hp : pat.isPrefixOf (c :: cs) = true
    · rw [if_pos hp] at h
      simp only [Option.some.injEq, Prod.mk.injEq] at h
      obtain ⟨h1, h2⟩ := h
      subst h1
      subst h2
      simpa using isPrefixOf_exists hp
    · rw [if_neg hp] at h
      cases hs : splitFirst pat cs with
      | none => rw [hs] at h; cases h
      | some pr =>
        obtain ⟨pre1, post1⟩ := pr
        rw [hs] at h
        simp only [Option.some.injEq, Prod.mk.injEq] at h
        obtain ⟨h1, h2⟩ := h
        subst h1
        subst h2
        have := ih hs
        simp only [List.cons_append]
        rw [← this]

/-- The returned decomposition is the leftmost one. -/
theorem splitFirst_min {pat : List Char} :
    ∀ {l pre post a b : List Char}, splitFirst pat l = some (pre, post) →
      l = a ++ pat ++ b → pre.length ≤ a.length := by
  intro l
  induction l with
  | nil =>
    intro pre post a b h hd
    by_cases hp : pat.isEmpty = true
    · simp only [splitFirst, hp, if_true, Option.some.injEq, Prod.mk.injEq] at h
      obtain ⟨h1, _⟩ := h
      subst h1
      simp
    · simp [splitFirst, hp] at h
  | cons c cs ih =>
    intro pre post a b h hd
    simp only [splitFirst] at h
    by_cases hp : pat.isPrefixOf (c :: cs) = true
    · rw [if_pos hp] at h
      simp only [Option.some.injEq, Prod.mk.injEq] at h
      obtain ⟨h1, _⟩ := h
      subst h1
      simp
    · rw [if_neg hp] at h
      cases hs : splitFirst pat cs with
      | none => rw [hs] at h; cases h
      | some pr =>
        obtain ⟨pre1, post1⟩ := pr
        rw [hs] at h
        simp only [Option.some.injEq, Prod.mk.injEq] at h
        obtain ⟨h1, _⟩ := h
        subst h1
        cases a with
        | nil =>
          exfalso
          apply hp
          simp only [List.nil_append] at hd
          rw [hd]
          exact isPrefixOf_append pat b
        | cons a0 asr =>
          simp only [List.cons_append, List.cons.injEq] at hd
          have := ih hs hd.2
          simp only [List.length_cons]
          omega

/-- The search succeeds exactly when an occurrence exists. -/
theorem splitFirst_isSome_iff {pat : List Char} :
    ∀ {l : List Char}, (splitFirst pat l).isSome = true ↔ ∃ a b, l = a ++ pat ++ b := by
  intro l
  induction l with
  | nil =>
    by_cases hp : pat.isEmpty = true
    · have hpe : pat = [] := List.isEmpty_iff.mp hp
      subst hpe
      simp [splitFirst]
    · have hpe : pat ≠ [] := fun hx => hp (by simp [hx])
      simp only [splitFirst, hp, if_false]
      constructor
      · intro hx
        cases hx
      · rintro ⟨a, b, hd⟩
        exfalso
        rcases List.append_eq_nil.mp (List.append_eq_nil.mp hd.symm).1 with ⟨_, h2⟩
        exact hpe h2
  | cons c cs ih =>
    simp only [splitFirst]
    by_cases hp : pat.isPrefixOf (c :: cs) = true
    · rw [if_pos hp]
      simp only [Option.isSome_some, true_iff]
      exact ⟨[], (c :: cs).drop pat.length, by simpa using isPrefixOf_exists hp⟩
    · rw [if_neg hp]
      cases hs : splitFirst pat cs with
      | none =>
        simp only [Option.isSome_none]
        constructor
        · intro hx
          exact absurd hx (by decide)
        · rintro ⟨a, b, hd⟩
          exfalso
          cases a with
          | nil =>
            apply hp
            rw [List.nil_append] at hd
            rw [hd]
            exact isPrefixOf_append pat b
          | cons a0 asr =>
            simp only [List.cons_append, List.cons.injEq] at hd
            have h2 : (splitFirst pat cs).isSome = true := ih.mpr ⟨asr, b, hd.2⟩
            rw [hs] at h2
            exact absurd h2 (by decide)
      | some pr =>
        obtain ⟨pre1, post1⟩ := pr
        simp only [Option.isSome_some, true_iff]
        have := splitFirst_decomp hs
        exact ⟨c :: pre1, post1, by simp [this]⟩

/-- Replacing what follows the first occurrence does not move it. -/
theorem splitFirst_stable {pat : List Char} :
    ∀ {pre post : List Char}, splitFirst pat (pre ++ pat ++ post) = some (pre, post) →
      ∀ x, splitFirst pat (pre ++ pat ++ x) = some (pre, x) := by
  intro pre
  induction pre with
  | nil =>
    intro post _ x
    simp only [List.nil_append]
    cases hx : pat ++ x with
    | nil =>
      rcases List.append_eq_nil.mp hx with ⟨h1, h2⟩
      subst h1
      subst h2
      rfl
    | cons d ds =>
      rw [splitFirst]
      rw [← hx]
      rw [if_pos (isPrefixOf_append pat x)]
      rw [List.drop_left]
  | cons c cs ih =>
    intro post h x
    simp only [List.cons_append] at h ⊢
    simp only [splitFirst] at h ⊢
    by_cases hp : pat.isPrefixOf (c :: (cs ++ pat ++ post)) = true
    · rw [if_pos hp] at h
      simp only [Option.some.injEq, Prod.mk.injEq] at h
      cases h.1
    · rw [if_neg hp] at h
      have hp2 : ¬ pat.isPrefixOf (c :: (cs ++ pat ++ x)) = true := by
        intro hx2
        apply hp
        have hlen : pat.length ≤ (c :: (cs ++ pat)).length := by
          simp [List.length_append]
          omega
        have hx3 : pat.isPrefixOf ((c :: (cs ++ pat)) ++ x) = true := by
          simpa [List.append_assoc] using hx2
        have hx4 := isPrefixOf_restrict x hlen hx3
        have hx5 := isPrefixOf_extend post hx4
        simpa [List.append_assoc] using hx5
      rw [if_neg hp2]
      cases hs : splitFirst pat (cs ++ pat ++ post) with
      | none => rw [hs] at h; cases h
      | some pr =>
        obtain ⟨pre1, post1⟩ := pr
        rw [hs] at h
        simp only [Option.some.injEq, Prod.mk.injEq] at h
        obtain ⟨h1, h2⟩ := h
        have hpre1 : pre1 = cs := by
          cases h1
          rfl
        subst hpre1
        subst h2
        rw [ih hs x]

/-! ### The substitution loop -/

theorem subRegionsFuel_of_none {repl l : List Char}
    (h : splitFirst START_MARKER.data l = none) :
    ∀ f, subRegionsFuel repl f l = l
  | 0 => rfl
  | f + 1 => by simp [subRegionsFuel, h]

theorem subRegionsFuel_of_noEnd {repl l pre rest : List Char}
    (h1 : splitFirst START_MARKER.data l = some (pre, rest))
    (h2 : splitFirst END_MARKER.data rest = none) :
    ∀ f, subRegionsFuel repl f l = l
  | 0 => rfl
  | f + 1 => by simp [subRegionsFuel, h1, h2]

theorem subRegionsFuel_step {repl l pre rest mid post : List Char}
    (h1 : splitFirst START_MARKER.data l = some (pre, rest))
    (h2 : splitFirst END_MARKER.data rest = some (mid, post)) (f : Nat) :
    subRegionsFuel repl (f + 1) l = pre ++ repl ++ subRegionsFuel repl f post := by
  simp [subRegionsFuel, h1, h2]

theorem splitFirst_post_lt {l pre rest mid post : List Char}
    (h1 : splitFirst START_MARKER.data l = some (pre, rest))
    (h2 : splitFirst END_MARKER.data rest = some (mid, post)) :
    post.length < l.length := by
  have e1 := splitFirst_decomp h1
  have e2 := splitFirst_decomp h2
  have hS : 0 < START_MARKER.data.length := by decide
  rw [e1, e2]
  simp only [List.length_append]
  omega

theorem subRegionsFuel_sufficient (repl : List Char) :
    ∀ n, ∀ l : List Char, l.length ≤ n → ∀ f, l.length ≤ f →
      subRegionsFuel repl f l = subRegions repl l := by
  intro n
  induction n with
  | zero =>
    intro l hl f _
    have hnil : l = [] := List.eq_nil_of_length_eq_zero (Nat.le_zero.mp hl)
    subst hnil
    have hS : splitFirst START_MARKER.data ([] : List Char) = none := rfl
    rw [subRegionsFuel_of_none hS, subRegions, subRegionsFuel_of_none hS]
  | succ n ih =>
    intro l hl f hf
    cases h1 : splitFirst START_MARKER.data l with
    | none => rw [subRegionsFuel_of_none h1, subRegions, subRegionsFuel_of_none h1]
    | some pr =>
      obtain ⟨pre, rest⟩ := pr
      cases h2 : splitFirst END_MARKER.data rest with
      | none =>
        rw [subRegionsFuel_of_noEnd h1 h2, subRegions, subRegionsFuel_of_noEnd h1 h2]
      | some qr =>
        obtain ⟨mid, post⟩ := qr
        have hlt := splitFirst_post_lt h1 h2
        obtain ⟨g, rfl⟩ : ∃ g, f = g + 1 := ⟨f - 1, by omega⟩
        rw [subRegionsFuel_step h1 h2 g, subRegions]
        obtain ⟨k, hk⟩ : ∃ k, l.length = k + 1 := ⟨l.length - 1, by omega⟩
        rw [hk, subRegionsFuel_step h1 h2 k]
        have e1 : subRegionsFuel repl g post = subRegions repl post :=
          ih post (by omega) g (by omega)
        have e2 : subRegionsFuel repl k post = subRegions repl post :=
          ih post (by omega) k (by omega)
        rw [e1, e2]

/-- The one-step unfolding of the substitution. -/
theorem subRegions_eq (repl l : List Char) :
    subRegions repl l =
      match splitFirst START_MARKER.data l with
      | none => l
      | some (pre, rest) =>
        match splitFirst END_MARKER.data rest with
        | none => l
        | some (_, post) => pre ++ repl ++ subRegions repl post := by
  cases h1 : splitFirst START_MARKER.data l with
  | none => rw [subRegions, subRegionsFuel_of_none h1]
  | some pr =>
    obtain ⟨pre, rest⟩ := pr
    cases h2 : splitFirst END_MARKER.data rest with
    | none =>
      rw [subRegions, subRegionsFuel_of_noEnd h1 h2]
      simp [h2]
    | some qr =>
      obtain ⟨mid, post⟩ := qr
      have hlt := splitFirst_post_lt h1 h2
      obtain ⟨k, hk⟩ : ∃ k, l.length = k + 1 := ⟨l.length - 1, by omega⟩
      show subRegionsFuel repl l.length l = _
      rw [hk, subRegionsFuel_step h1 h2 k]
      rw [subRegionsFuel_sufficient repl post.length post (Nat.le_refl _) k (by omega)]
      simp [h2]

/-- When the replacement is itself a well-delimited region (the end marker
first occurs in `m ++ END_MARKER` at its very end), the substitution is
idempotent. -/
theorem subRegions_idem (repl m : List Char)
    (hrep : repl = START_MARKER.data ++ m ++ END_MARKER.data)
    (hmid : splitFirst END_MARKER.data (m ++ END_MARKER.data) = some (m, [])) :
    ∀ l : List Char, subRegions repl (subRegions repl l) = subRegions repl l := by
  have hstep : ∀ n, ∀ l : List Char, l.length ≤ n →
      subRegions repl (subRegions repl l) = subRegions repl l := by
    intro n
    induction n with
    | zero =>
      intro l hl
      have hnil : l = [] := List.eq_nil_of_length_eq_zero (Nat.le_zero.mp hl)
      subst hnil
      rfl
    | succ n ih =>
      intro l hl
      cases h1 : splitFirst START_MARKER.data l with
      | none =>
        have e : subRegions repl l = l := by
          rw [subRegions_eq repl l, h1]
        rw [e, e]
      | some pr =>
        obtain ⟨pre, rest⟩ := pr
        cases h2 : splitFirst END_MARKER.data rest with
        | none =>
          have e : subRegions repl l = l := by
            rw [subRegions_eq repl l]
            simp [h1, h2]
          rw [e, e]
        | some qr =>
          obtain ⟨mid, post⟩ := qr
          have hlt := splitFirst_post_lt h1 h2
          have e : subRegions repl l = pre ++ repl ++ subRegions repl post := by
            rw [subRegions_eq repl l]
            simp [h1, h2]
          rw [e]
          have hs1 : ∀ x, splitFirst START_MARKER.data (pre ++ START_MARKER.data ++ x)
              = some (pre, x) := by
            apply splitFirst_stable
            rw [← splitFirst_decomp h1]
            exact h1
          have hs2 : ∀ x, splitFirst END_MARKER.data (m ++ END_MARKER.data ++ x)
              = some (m, x) := by
            apply splitFirst_stable
            simpa using hmid
          have hform : pre ++ repl ++ subRegions repl post
              = pre ++ START_MARKER.data
                ++ (m ++ END_MARKER.data ++ subRegions repl post) := by
            rw [hrep]
            simp [List.append_assoc]
          rw [subRegions_eq repl (pre ++ repl ++ subRegions repl post), hform]
          simp only [hs1 (m ++ END_MARKER.data ++ subRegions repl post),
            hs2 (subRegions repl post)]
          rw [ih post (by omega)]
          rw [hrep]
          simp [List.append_assoc]
  intro l
  exact hstep l.length l (Nat.le_refl _)

/-! ### The replacement text is itself a well-delimited region -/

theorem mid_no_end (entries : List Char)
    (hocc : ∀ a b : List Char, entries ≠ a ++ END_MARKER.data ++ b) :
    ∀ a b : List Char, '\n' :: entries ++ ['\n'] ≠ a ++ END_MARKER.data ++ b := by
  intro a b hd
  have hne : END_MARKER.data ≠ [] := by decide
  have hnl : ('\n' : Char) ∉ END_MARKER.data := by decide
  cases a with
  | nil =>
    cases hEc : END_MARKER.data with
    | nil => exact hne hEc
    | cons e es =>
      rw [hEc] at hd
      simp only [List.nil_append, List.cons_append, List.cons.injEq] at hd
      apply hnl
      rw [hEc]
      rw [← hd.1]
      exact List.mem_cons_self _ _
  | cons a0 arest =>
    simp only [List.cons_append, List.cons.injEq] at hd
    obtain ⟨ha0, htail⟩ := hd
    rcases List.eq_nil_or_concat b with hb | ⟨b0, x, hb⟩
    · subst hb
      rcases List.eq_nil_or_concat END_MARKER.data with hEc | ⟨E0, e, hEc⟩
      · exact hne hEc
      · rw [hEc] at htail
        simp only [List.concat_eq_append, List.append_nil, ← List.append_assoc] at htail
        have h2 := List.append_inj' htail rfl
        apply hnl
        rw [hEc]
        simp only [List.concat_eq_append]
        apply List.mem_append_right
        have hx : ('\n' : Char) = e := by simpa using h2.2
        rw [← hx]
        exact List.mem_cons_self _ _
    · subst hb
      simp only [List.concat_eq_append, ← List.append_assoc] at htail
      have h2 := List.append_inj' htail rfl
      exact hocc arest b0 h2.1

theorem splitFirst_mid_marker (entries : List Char)
    (hE : splitFirst END_MARKER.data entries = none) :
    splitFirst END_MARKER.data (('\n' :: entries ++ ['\n']) ++ END_MARKER.data)
      = some ('\n' :: entries ++ ['\n'], []) := by
  have hocc : ∀ a b : List Char, entries ≠ a ++ END_MARKER.data ++ b := by
    intro a b hd
    have h2 : (splitFirst END_MARKER.data entries).isSome = true :=
      splitFirst_isSome_iff.mpr ⟨a, b, hd⟩
    rw [hE] at h2
    exact absurd h2 (by decide)
  have hmid := mid_no_end entries hocc
  have hex : (splitFirst END_MARKER.data
      (('\n' :: entries ++ ['\n']) ++ END_MARKER.data)).isSome = true :=
    splitFirst_isSome_iff.mpr ⟨'\n' :: entries ++ ['\n'], [], by simp⟩
  obtain ⟨pr, hpr⟩ := Option.isSome_iff_exists.mp hex
  obtain ⟨pre, post⟩ := pr
  have hdec := splitFirst_decomp hpr
  have hminle : pre.length ≤ ('\n' :: entries ++ ['\n']).length :=
    splitFirst_min (a := '\n' :: entries ++ ['\n']) (b := []) hpr (by simp)
  by_cases hlen : pre.length = ('\n' :: entries ++ ['\n']).length
  · have hprem : pre = '\n' :: entries ++ ['\n'] := by
      have hdec' : ('\n' :: entries ++ ['\n']) ++ END_MARKER.data
          = pre ++ (END_MARKER.data ++ post) := by
        simpa [List.append_assoc] using hdec
      have h1 : ((pre ++ (END_MARKER.data ++ post)).take pre.length) = pre :=
        List.take_left pre _
      rw [← hdec', List.take_left' hlen.symm] at h1
      exact h1.symm
    subst hprem
    have hpost : post = [] := by
      have hlens := congrArg List.length hdec
      simp only [List.length_append] at hlens
      have : post.length = 0 := by omega
      exact List.eq_nil_of_length_eq_zero this
    subst hpost
    exact hpr
  · exfalso
    have hlt : pre.length < ('\n' :: entries ++ ['\n']).length :=
      lt_of_le_of_ne hminle hlen
    have h0 := congrArg (List.drop pre.length) hdec
    rw [List.drop_append_of_le_length (le_of_lt hlt)] at h0
    rw [List.append_assoc, List.drop_left] at h0
    have hdne : ('\n' :: entries ++ ['\n']).drop pre.length ≠ [] := by
      intro hx
      have := congrArg List.length hx
      simp only [List.length_drop, List.length_nil] at this
      omega
    have hple : pre.length ≤ ('\n' :: entries).length := by
      have hlen2 : ('\n' :: entries ++ ['\n']).length = ('\n' :: entries).length + 1 := by
        simp
      omega
    have hdform : ('\n' :: entries ++ ['\n']).drop pre.length
        = ('\n' :: entries).drop pre.length ++ ['\n'] := by
      have hform : '\n' :: entries ++ ['\n'] = ('\n' :: entries) ++ ['\n'] := by simp
      rw [hform, List.drop_append_of_le_length hple]
    have hnl : ('\n' : Char) ∉ END_MARKER.data := by decide
    by_cases hdE :
        (('\n' :: entries ++ ['\n']).drop pre.length).length ≤ END_MARKER.data.length
    · have h1 := congrArg (List.take END_MARKER.data.length) h0.symm
      rw [List.take_left] at h1
      rw [List.take_append_eq_append_take, List.take_of_length_le hdE] at h1
      apply hnl
      rw [h1]
      apply List.mem_append_left
      rw [hdform]
      apply List.mem_append_right
      simp
    · push_neg at hdE
      have h1 := congrArg (List.take END_MARKER.data.length) h0.symm
      rw [List.take_left] at h1
      rw [List.take_append_of_le_length (le_of_lt hdE)] at h1
      have hdd : END_MARKER.data
          ++ (('\n' :: entries ++ ['\n']).drop pre.length).drop END_MARKER.data.length
          = ('\n' :: entries ++ ['\n']).drop pre.length := by
        conv_rhs => rw [← List.take_append_drop END_MARKER.data.length
          (('\n' :: entries ++ ['\n']).drop pre.length)]
        rw [← h1]
      apply hmid (('\n' :: entries ++ ['\n']).take pre.length)
        ((('\n' :: entries ++ ['\n']).drop pre.length).drop END_MARKER.data.length)
      conv_lhs => rw [← List.take_append_drop pre.length ('\n' :: entries ++ ['\n'])]
      rw [List.append_assoc, hdd]

/-! ### Marker search and substitution claims -/

/-! ### Replacement-template lemmas -/

/-- A backslash-free replacement string parses to its own characters as
literals. -/
theorem parseTemplateFuel_noBS :
    ∀ l : List Char, (∀ c ∈ l, ¬ c = '\\') →
      parseTemplateFuel l.length l = .ok (l.map (fun c => RTmplItem.lit [c]))
  | [] => fun _ => rfl
  | c :: cs => fun h => by
    have hc : ¬ c = '\\' := h c (List.mem_cons_self _ _)
    simp only [List.length_cons, parseTemplateFuel, if_neg hc]
    rw [parseTemplateFuel_noBS cs (fun d hd => h d (List.mem_cons_of_mem _ hd))]
    rfl

theorem expandTemplate_map_lit (l m : List Char) :
    expandTemplate (l.map (fun c => RTmplItem.lit [c])) m = l := by
  unfold expandTemplate
  induction l with
  | nil => rfl
  | cons c cs ih =>
    simp only [List.map_cons, List.flatMap_cons]
    rw [ih]
    rfl

/-- With a fully literal template the matched region is irrelevant, and the
substitution coincides with the plain-replacement substitution. -/
theorem subRegionsTFuel_lit {items : List RTmplItem} {r : List Char}
    (hconst : ∀ m, expandTemplate items m = r) :
    ∀ f l, subRegionsTFuel items f l = subRegionsFuel r f l := by
  intro f
  induction f with
  | zero =>
    intro l
    rfl
  | succ f ih =>
    intro l
    cases h1 : splitFirst START_MARKER.data l with
    | none => simp [subRegionsTFuel, subRegionsFuel, h1]
    | some pr =>
      obtain ⟨pre, rest⟩ := pr
      cases h2 : splitFirst END_MARKER.data rest with
      | none => simp [subRegionsTFuel, subRegionsFuel, h1, h2]
      | some qr =>
        obtain ⟨mid, post⟩ := qr
        simp only [subRegionsTFuel, subRegionsFuel, h1, h2]
        rw [hconst, ih]

theorem subRegionsT_lit {items : List RTmplItem} {r : List Char}
    (hconst : ∀ m, expandTemplate items m = r) (l : List Char) :
    subRegionsT items l = subRegions r l :=
  subRegionsTFuel_lit hconst l.length l

theorem parse_template_replacement {entries : String}
    (hB : ∀ c ∈ entries.data, ¬ c = '\\') :
    parse_template (replacementText entries)
      = .ok ((replacementText entries).map (fun c => RTmplItem.lit [c])) := by
  apply parseTemplateFuel_noBS
  intro c hc
  unfold replacementText at hc
  simp only [List.mem_append, List.mem_cons] at hc
  rcases hc with h | h | h | h | h
  · exact (by decide : ∀ d ∈ START_MARKER.data, ¬ d = '\\') c h
  · subst h
    decide
  · exact hB c h
  · subst h
    decide
  · exact (by decide : ∀ d ∈ END_MARKER.data, ¬ d = '\\') c h

/-! ### Marker search and substitution claims -/

/-- C8 (amended): update_icons_js writes only when the substituted content
differs byte-for-byte from the current content and returns whether a write
occurred; and provided the entries text contains no backslash (so the re.sub
template inserts it literally) and does not itself contain the end marker, a
second call with identical entries finds the content already in its final
form and reports no change. -/
theorem update_write_discipline (entries : String)
    (hB : ∀ c ∈ entries.data, ¬ c = '\\')
    (hE : splitFirst END_MARKER.data entries.data = none) :
    ∀ st st₁ : FS, ∀ b : Bool, update_icons_js st entries = (st₁, .ok b) →
      ((b = true) ↔ st₁.iconsJs ≠ st.iconsJs) ∧
      update_icons_js st₁ entries = (st₁, .ok false) := by
  have hmid := splitFirst_mid_marker entries.data hE
  have hrep : replacementText entries
      = START_MARKER.data ++ ('\n' :: entries.data ++ ['\n']) ++ END_MARKER.data := by
    simp [replacementText, List.append_assoc]
  have hidem := subRegions_idem (replacementText entries)
    ('\n' :: entries.data ++ ['\n']) hrep hmid
  have hpt : parse_template (replacementText entries)
      = .ok ((replacementText entries).map (fun c => RTmplItem.lit [c])) :=
    parse_template_replacement hB
  have hsubT : ∀ l, subRegionsT
      ((replacementText entries).map (fun c => RTmplItem.lit [c])) l
      = subRegions (replacementText entries) l :=
    subRegionsT_lit (fun m => expandTemplate_map_lit _ m)
  intro st st₁ b h
  revert h
  unfold update_icons_js
  cases h1 : splitFirst START_MARKER.data st.iconsJs.data with
  | none =>
    intro h
    simp at h
  | some pr =>
    obtain ⟨pre, rest⟩ := pr
    cases h2 : splitFirst END_MARKER.data rest with
    | none =>
      simp only [h2]
      intro h
      simp at h
    | some q =>
      obtain ⟨mid, post⟩ := q
      simp only [h2, hpt, hsubT]
      have hsub : subRegions (replacementText entries) st.iconsJs.data
          = pre ++ replacementText entries
            ++ subRegions (replacementText entries) post := by
        rw [subRegions_eq (replacementText entries) st.iconsJs.data]
        simp [h1, h2]
      have hs1 : ∀ x, splitFirst START_MARKER.data (pre ++ START_MARKER.data ++ x)
          = some (pre, x) := by
        apply splitFirst_stable
        rw [← splitFirst_decomp h1]
        exact h1
      have hs2 : ∀ x, splitFirst END_MARKER.data
          (('\n' :: entries.data ++ ['\n']) ++ END_MARKER.data ++ x)
          = some ('\n' :: entries.data ++ ['\n'], x) := by
        apply splitFirst_stable
        simpa using hmid
      have hform : pre ++ replacementText entries
            ++ subRegions (replacementText entries) post
          = pre ++ START_MARKER.data
            ++ (('\n' :: entries.data ++ ['\n']) ++ END_MARKER.data
              ++ subRegions (replacementText entries) post) := by
        rw [hrep]
        simp [List.append_assoc]
      have hsearch1 : splitFirst START_MARKER.data
          (subRegions (replacementText entries) st.iconsJs.data)
          = some (pre, ('\n' :: entries.data ++ ['\n']) ++ END_MARKER.data
            ++ subRegions (replacementText entries) post) := by
        rw [hsub, hform]
        exact hs1 _
      have hsearch2 : splitFirst END_MARKER.data
          (('\n' :: entries.data ++ ['\n']) ++ END_MARKER.data
            ++ subRegions (replacementText entries) post)
          = some ('\n' :: entries.data ++ ['\n'],
              subRegions (replacementText entries) post) :=
        hs2 _
      by_cases heq :
          String.mk (subRegions (replacementText entries) st.iconsJs.data) = st.iconsJs
      · rw [if_pos heq]
        intro h
        simp only [Prod.mk.injEq] at h
        obtain ⟨hst, hb⟩ := h
        have hb2 : b = false := by
          have h3 := congrArg (fun x : Except String Bool =>
            match x with | .ok v => v | .error _ => true) hb
          simpa using h3.symm
        constructor
        · rw [hb2, ← hst]
          simp
        · rw [← hst]
          simp only [h1, h2, hpt, hsubT]
          rw [if_pos heq]
      · rw [if_neg heq]
        intro h
        simp only [Prod.mk.injEq] at h
        obtain ⟨hst, hb⟩ := h
        have hb2 : b = true := by
          have h3 := congrArg (fun x : Except String Bool =>
            match x with | .ok v => v | .error _ => false) hb
          simpa using h3.symm
        have hdata : st₁.iconsJs.data
            = subRegions (replacementText entries) st.iconsJs.data := by
          rw [← hst]
        constructor
        · constructor
          · intro _
            rw [← hst]
            exact heq
          · intro _
            exact hb2
        · have hscrut : splitFirst START_MARKER.data st₁.iconsJs.data
              = some (pre, ('\n' :: entries.data ++ ['\n']) ++ END_MARKER.data
                ++ subRegions (replacementText entries) post) := by
            rw [hdata]
            exact hsearch1
          simp only [hscrut, hsearch2, hpt, hsubT]
          have hfix : String.mk (subRegions (replacementText entries)
                st₁.iconsJs.data)
              = st₁.iconsJs := by
            rw [hdata, hidem st.iconsJs.data, ← hdata]
          rw [if_pos hfix]

/-- Witness for C8 on a marker file and backslash-free entries free of the
end marker. -/
theorem update_write_discipline_witness :
    ((true = true) ↔ (FS.mk [] (START_MARKER ++ "\nx\n" ++ END_MARKER)).iconsJs
        ≠ (FS.mk [] (START_MARKER ++ "\n" ++ END_MARKER)).iconsJs) ∧
    update_icons_js (FS.mk [] (START_MARKER ++ "\nx\n" ++ END_MARKER)) "x"
      = (FS.mk [] (START_MARKER ++ "\nx\n" ++ END_MARKER), .ok false) :=
  update_write_discipline "x" (by decide) (by rfl)
    (FS.mk [] (START_MARKER ++ "\n" ++ END_MARKER))
    (FS.mk [] (START_MARKER ++ "\nx\n" ++ END_MARKER)) true (by rfl)

/-! ### Whitespace canonicalization -/

theorem collapseWsFuel_sufficient :
    ∀ n, ∀ l : List Char, l.length ≤ n → ∀ f, l.length ≤ f →
      collapseWsFuel f l = collapseWs l := by
  intro n
  induction n with
  | zero =>
    intro l hl f _
    have hnil : l = [] := List.eq_nil_of_length_eq_zero (Nat.le_zero.mp hl)
    subst hnil
    cases f <;> rfl
  | succ n ih =>
    intro l hl f hf
    cases l with
    | nil => cases f <;> rfl
    | cons c cs =>
      obtain ⟨g, rfl⟩ : ∃ g, f = g + 1 := ⟨f - 1, by simp at hf; omega⟩
      have hcs : cs.length ≤ n := by simp at hl; omega
      show collapseWsFuel (g + 1) (c :: cs) = collapseWsFuel (c :: cs).length (c :: cs)
      simp only [List.length_cons, collapseWsFuel]
      by_cases hc : c = '>'
      · rw [if_pos hc, if_pos hc]
        by_cases hm : (cs.dropWhile isPyWs).head? = some '<'
        · rw [if_pos hm, if_pos hm]
          have h1 : (cs.dropWhile isPyWs).length ≤ cs.length :=
            (List.dropWhile_suffix isPyWs).length_le
          have h2 : ((cs.dropWhile isPyWs).tail).length ≤ cs.length := by
            simp only [List.length_tail]
            omega
          rw [ih ((cs.dropWhile isPyWs).tail) (by omega) g (by simp at hf; omega)]
          rw [ih ((cs.dropWhile isPyWs).tail) (by omega) cs.length (by omega)]
        · rw [if_neg hm, if_neg hm]
          rw [ih cs hcs g (by simp at hf; omega), ih cs hcs cs.length (Nat.le_refl _)]
      · rw [if_neg hc, if_neg hc]
        rw [ih cs hcs g (by simp at hf; omega), ih cs hcs cs.length (Nat.le_refl _)]

theorem collapseWs_nil : collapseWs [] = [] := rfl

theorem collapseWs_cons_ne (c : Char) (cs : List Char) (h : ¬ c = '>') :
    collapseWs (c :: cs) = c :: collapseWs cs := by
  show collapseWsFuel (c :: cs).length (c :: cs) = _
  simp only [List.length_cons, collapseWsFuel]
  rw [if_neg h]
  rw [collapseWsFuel_sufficient cs.length cs (Nat.le_refl _) cs.length (Nat.le_refl _)]

theorem collapseWs_gt_pos (cs : List Char)
    (h : (cs.dropWhile isPyWs).head? = some '<') :
    collapseWs ('>' :: cs)
      = '>' :: '\n' :: '<' :: collapseWs (cs.dropWhile isPyWs).tail := by
  show collapseWsFuel ('>' :: cs).length ('>' :: cs) = _
  simp only [List.length_cons, collapseWsFuel]
  rw [if_pos trivial, if_pos h]
  have h1 : (cs.dropWhile isPyWs).length ≤ cs.length :=
    (List.dropWhile_suffix isPyWs).length_le
  rw [collapseWsFuel_sufficient ((cs.dropWhile isPyWs).tail).length _ (Nat.le_refl _)
    cs.length (by simp only [List.length_tail]; omega)]

theorem collapseWs_gt_neg (cs : List Char)
    (h : ¬ (cs.dropWhile isPyWs).head? = some '<') :
    collapseWs ('>' :: cs) = '>' :: collapseWs cs := by
  show collapseWsFuel ('>' :: cs).length ('>' :: cs) = _
  simp only [List.length_cons, collapseWsFuel]
  rw [if_pos trivial, if_neg h]
  rw [collapseWsFuel_sufficient cs.length cs (Nat.le_refl _) cs.length (Nat.le_refl _)]

theorem wsOnly_takeWhile (l : List Char) : wsOnly (l.takeWhile isPyWs) = true := by
  induction l with
  | nil => rfl
  | cons c cs ih =>
    by_cases hc : isPyWs c = true
    · rw [List.takeWhile_cons, if_pos hc]
      simp only [wsOnly, List.all_cons, Bool.and_eq_true]
      exact ⟨hc, ih⟩
    · rw [List.takeWhile_cons, if_neg hc]
      rfl

theorem head?_dropWhile_ws {l : List Char} {c : Char}
    (h : (l.dropWhile isPyWs).head? = some c) : isPyWs c = false := by
  induction l with
  | nil => simp [List.dropWhile] at h
  | cons a as ih =>
    by_cases ha : isPyWs a = true
    · rw [List.dropWhile_cons_of_pos ha] at h
      exact ih h
    · rw [List.dropWhile_cons_of_neg ha] at h
      simp only [List.head?_cons, Option.some.injEq] at h
      rw [← h]
      simpa using ha

theorem collapseWs_ws_append :
    ∀ u v : List Char, wsOnly u = true → collapseWs (u ++ v) = u ++ collapseWs v := by
  intro u
  induction u with
  | nil =>
    intro v _
    simp
  | cons c cs ih =>
    intro v hu
    simp only [wsOnly, List.all_cons, Bool.and_eq_true] at hu
    have hc : ¬ c = '>' := by
      intro hx
      rw [hx] at hu
      exact absurd hu.1 (by decide)
    rw [List.cons_append, collapseWs_cons_ne c _ hc, ih v hu.2]
    rfl

theorem collapseWs_cons_head (e : Char) (es : List Char) :
    ∃ t, collapseWs (e :: es) = e :: t := by
  by_cases he : e = '>'
  · subst he
    by_cases hm : (es.dropWhile isPyWs).head? = some '<'
    · exact ⟨_, collapseWs_gt_pos es hm⟩
    · exact ⟨_, collapseWs_gt_neg es hm⟩
  · exact ⟨_, collapseWs_cons_ne e es he⟩

theorem ws_split :
    ∀ u w : List Char, wsOnly u = true → wsOnly w = true →
      ∀ (h : Char) (rest b : List Char), isPyWs h = false →
        u ++ h :: rest = w ++ '<' :: b → u = w ∧ h = '<' ∧ rest = b := by
  intro u
  induction u with
  | nil =>
    intro w _ hw h rest b hh hd
    cases w with
    | nil =>
      rw [List.nil_append, List.nil_append] at hd
      injection hd with h1 h2
      exact ⟨rfl, h1, h2⟩
    | cons x w' =>
      exfalso
      rw [List.nil_append, List.cons_append] at hd
      injection hd with h1 hd2
      simp only [wsOnly, List.all_cons, Bool.and_eq_true] at hw
      rw [← h1] at hw
      rw [hw.1] at hh
      exact absurd hh (by decide)
  | cons c u' ih =>
    intro w hu hw h rest b hh hd
    simp only [wsOnly, List.all_cons, Bool.and_eq_true] at hu
    cases w with
    | nil =>
      exfalso
      rw [List.cons_append, List.nil_append] at hd
      injection hd with h1 hd2
      rw [h1] at hu
      exact absurd hu.1 (by decide)
    | cons x w' =>
      rw [List.cons_append, List.cons_append] at hd
      injection hd with h1 h2
      simp only [wsOnly, List.all_cons, Bool.and_eq_true] at hw
      obtain ⟨hq1, hq2, hq3⟩ := ih w' hu.2 hw.2 h rest b hh h2
      refine ⟨?_, hq2, hq3⟩
      rw [h1, hq1]

theorem collapseWs_gap :
    ∀ n, ∀ s : List Char, s.length ≤ n →
      ∀ a w b : List Char, collapseWs s = a ++ '>' :: (w ++ '<' :: b) →
        wsOnly w = true → w = ['\n'] := by
  intro n
  induction n with
  | zero =>
    intro s hs a w b heq hw
    have hnil : s = [] := List.eq_nil_of_length_eq_zero (Nat.le_zero.mp hs)
    subst hnil
    rw [collapseWs_nil] at heq
    exact absurd heq (by simp)
  | succ n ih =>
    intro s hs a w b heq hw
    cases s with
    | nil =>
      rw [collapseWs_nil] at heq
      exact absurd heq (by simp)
    | cons c cs =>
      by_cases hc : c = '>'
      · subst hc
        by_cases hm : (cs.dropWhile isPyWs).head? = some '<'
        · rw [collapseWs_gt_pos cs hm] at heq
          cases a with
          | nil =>
            rw [List.nil_append] at heq
            injection heq with hel heq2
            cases w with
            | nil =>
              exfalso
              rw [List.nil_append] at heq2
              injection heq2 with h1 h1t
              exact absurd h1 (by decide)
            | cons x w' =>
              rw [List.cons_append] at heq2
              injection heq2 with hx heq3
              cases w' with
              | nil => rw [← hx]
              | cons y w'' =>
                exfalso
                rw [List.cons_append] at heq3
                injection heq3 with hy hyt
                simp only [wsOnly, List.all_cons, Bool.and_eq_true] at hw
                rw [← hy] at hw
                exact absurd hw.2.1 (by decide)
          | cons a0 a' =>
            rw [List.cons_append] at heq
            injection heq with hel heq2
            cases a' with
            | nil =>
              exfalso
              rw [List.nil_append] at heq2
              injection heq2 with h1 h1t
              exact absurd h1 (by decide)
            | cons a1 a'' =>
              rw [List.cons_append] at heq2
              injection heq2 with hel2 heq3
              cases a'' with
              | nil =>
                exfalso
                rw [List.nil_append] at heq3
                injection heq3 with h1 h1t
                exact absurd h1 (by decide)
              | cons a2 a''' =>
                rw [List.cons_append] at heq3
                injection heq3 with hel3 heq4
                apply ih ((cs.dropWhile isPyWs).tail) ?_ a''' w b heq4 hw
                have h1 : (cs.dropWhile isPyWs).length ≤ cs.length :=
                  (List.dropWhile_suffix isPyWs).length_le
                simp only [List.length_cons] at hs
                simp only [List.length_tail]
                omega
        · rw [collapseWs_gt_neg cs hm] at heq
          cases a with
          | nil =>
            exfalso
            rw [List.nil_append] at heq
            injection heq with hel heq2
            have hcs : collapseWs cs
                = cs.takeWhile isPyWs ++ collapseWs (cs.dropWhile isPyWs) := by
              conv_lhs => rw [← List.takeWhile_append_dropWhile (p := isPyWs) (l := cs)]
              rw [collapseWs_ws_append _ _ (wsOnly_takeWhile cs)]
            rw [hcs] at heq2
            cases hv : cs.dropWhile isPyWs with
            | nil =>
              rw [hv, collapseWs_nil, List.append_nil] at heq2
              have hmem : ('<' : Char) ∈ cs.takeWhile isPyWs := by
                rw [heq2]
                exact List.mem_append_right _ (List.mem_cons_self _ _)
              have hall := wsOnly_takeWhile cs
              simp only [wsOnly, List.all_eq_true] at hall
              exact absurd (hall _ hmem) (by decide)
            | cons e es =>
              rw [hv] at heq2
              obtain ⟨t, ht⟩ := collapseWs_cons_head e es
              rw [ht] at heq2
              have he : isPyWs e = false := head?_dropWhile_ws (by rw [hv]; rfl)
              obtain ⟨h1, h2, h3⟩ :=
                ws_split (cs.takeWhile isPyWs) w (wsOnly_takeWhile cs) hw e t b he heq2
              apply hm
              rw [hv, h2]
              rfl
          | cons a0 a' =>
            rw [List.cons_append] at heq
            injection heq with hel heq2
            apply ih cs ?_ a' w b heq2 hw
            simp only [List.length_cons] at hs
            omega
      · rw [collapseWs_cons_ne c cs hc] at heq
        cases a with
        | nil =>
          exfalso
          rw [List.nil_append] at heq
          injection heq with h1 h1t
          exact hc h1
        | cons a0 a' =>
          rw [List.cons_append] at heq
          injection heq with hel heq2
          apply ih cs ?_ a' w b heq2 hw
          simp only [List.length_cons] at hs
          omega

theorem pyStripL_infix (l : List Char) : ∃ u v, l = u ++ pyStripL l ++ v := by
  refine ⟨l.takeWhile isPyWs, ((l.dropWhile isPyWs).reverse.takeWhile isPyWs).reverse, ?_⟩
  conv_lhs => rw [← List.takeWhile_append_dropWhile (p := isPyWs) (l := l)]
  rw [List.append_assoc]
  congr 1
  conv_lhs => rw [← List.reverse_reverse (l.dropWhile isPyWs),
    ← List.takeWhile_append_dropWhile (p := isPyWs)
      (l := (l.dropWhile isPyWs).reverse)]
  rw [List.reverse_append]
  rfl

theorem pyStripL_last {l : List Char} {c : Char}
    (h : (pyStripL l).getLast? = some c) : isPyWs c = false := by
  unfold pyStripL at h
  rw [List.getLast?_reverse] at h
  exact head?_dropWhile_ws h

theorem pyStripL_head {l : List Char} {c : Char}
    (h : (pyStripL l).head? = some c) : isPyWs c = false := by
  unfold pyStripL at h
  rw [List.head?_reverse] at h
  obtain ⟨t, ht⟩ := List.dropWhile_suffix
    (l := (l.dropWhile isPyWs).reverse) isPyWs
  have hne : (l.dropWhile isPyWs).reverse.dropWhile isPyWs ≠ [] := by
    intro hx
    rw [hx] at h
    exact absurd h (by simp)
  have h2 : ((l.dropWhile isPyWs).reverse).getLast? = some c := by
    rw [← ht, List.getLast?_append]
    rw [h]
    rfl
  rw [List.getLast?_reverse] at h2
  exact head?_dropWhile_ws h2

/-- C9: in normalize_svg's output, every whitespace run lying strictly
between a closing `>` and the next opening `<` is exactly one newline, and
the whole result carries no leading and no trailing whitespace, so the
output is newline-separated tags with no other inter-tag whitespace. -/
theorem whitespace_canonicalization (parse : String → Except String Element)
    (x out : String) (h : normalize_svg parse x = .ok out) :
    (∀ a w b : List Char, out.data = a ++ '>' :: (w ++ '<' :: b) →
      wsOnly w = true → w = ['\n']) ∧
    (∀ c : Char, out.data.head? = some c → isPyWs c = false) ∧
    (∀ c : Char, out.data.getLast? = some c → isPyWs c = false) := by
  unfold normalize_svg at h
  cases hp : parse x with
  | error e =>
    rw [hp] at h
    cases h
  | ok root =>
    rw [hp] at h
    injection h with h
    have hdata : out.data = canonicalizeWs (serTop (normalizeTree root)) := by
      rw [← h]
    refine ⟨?_, ?_, ?_⟩
    · intro a w b hd hw
      rw [hdata] at hd
      unfold canonicalizeWs at hd
      obtain ⟨u, v, hl⟩ := pyStripL_infix (collapseWs (serTop (normalizeTree root)))
      refine collapseWs_gap (serTop (normalizeTree root)).length _
        (Nat.le_refl _) (u ++ a) w (b ++ v) ?_ hw
      rw [hd] at hl
      rw [hl]
      simp [List.append_assoc]
    · intro c hc
      rw [hdata] at hc
      exact pyStripL_head hc
    · intro c hc
      rw [hdata] at hc
      exact pyStripL_last hc

/-- Witness for C9 on a concrete parsed tree: the output starts with an
opening angle bracket, a non-whitespace character. -/
theorem whitespace_canonicalization_witness : isPyWs '<' = false := by
  have h := whitespace_canonicalization
    (fun _ => .ok (Element.mk "svg" [] "" [] "")) "x"
    (String.mk (canonicalizeWs (serTop (normalizeTree (Element.mk "svg" [] "" [] "")))))
    (by rfl)
  exact h.2.1 '<' (by rfl)

/-- Counterexample to C8 as stated: when the entries text contains the end
marker itself, the first call writes, and the second call with identical
entries again reports a change instead of no change. -/
theorem update_second_call_reports_change :
    update_icons_js (FS.mk [] (START_MARKER ++ "\n" ++ END_MARKER)) END_MARKER
      = (FS.mk [] (START_MARKER ++ "\n" ++ END_MARKER ++ "\n" ++ END_MARKER),
          .ok true) ∧
    (update_icons_js
      (FS.mk [] (START_MARKER ++ "\n" ++ END_MARKER ++ "\n" ++ END_MARKER))
      END_MARKER).2 = .ok true := by
  exact ⟨rfl, rfl⟩

/-! ### Serialization stream analysis -/

theorem escCdataChar_clean (c : Char) :
    (escCdataChar c).all (fun d => !(d = '>' || d = '<')) = true := by
  unfold escCdataChar
  split_ifs with h1 h2 h3
  · decide
  · decide
  · decide
  · simp only [List.all_cons, List.all_nil, Bool.and_true]
    simp [h2, h3]

theorem escCdata_clean (s : String) :
    (escCdata s).all (fun d => !(d = '>' || d = '<')) = true := by
  unfold escCdata
  induction s.data with
  | nil => rfl
  | cons c cs ih =>
    simp only [List.flatMap_cons, List.all_append, Bool.and_eq_true]
    exact ⟨escCdataChar_clean c, ih⟩

theorem clean_noGt {l : List Char}
    (h : l.all (fun d => !(d = '>' || d = '<')) = true) : noGt l = true := by
  unfold noGt
  simp only [List.all_eq_true] at h ⊢
  intro c hc
  have := h c hc
  simp only [Bool.not_eq_true', Bool.or_eq_false_iff] at this
  simp [this.1]

theorem escAttribChar_noGt (c : Char) : noGt (escAttribChar c) = true := by
  unfold escAttribChar noGt
  split_ifs with h1 h2 h3 h4 h5 h6 h7
  · decide
  · decide
  · decide
  · decide
  · decide
  · decide
  · decide
  · simp [h3]

theorem escAttrib_noGt (s : String) : noGt (escAttrib s) = true := by
  unfold escAttrib
  induction s.data with
  | nil => rfl
  | cons c cs ih =>
    simp only [noGt, List.flatMap_cons, List.all_append, Bool.and_eq_true]
    exact ⟨escAttribChar_noGt c, ih⟩

theorem noGt_append {x y : List Char} (hx : noGt x = true) (hy : noGt y = true) :
    noGt (x ++ y) = true := by
  simp only [noGt, List.all_append, Bool.and_eq_true]
  exact ⟨hx, hy⟩

theorem serAttrs_noGt {a : List (String × String)}
    (ha : a.all (fun kv => noGt kv.1.data) = true) : noGt (serAttrs a) = true := by
  induction a with
  | nil => rfl
  | cons kv rest ih =>
    simp only [List.all_cons, Bool.and_eq_true] at ha
    show noGt (serAttr kv ++ serAttrs rest) = true
    apply noGt_append ?_ (ih ha.2)
    show noGt (' ' :: (kv.1.data ++ '=' :: '"' :: (escAttrib kv.2 ++ ['"']))) = true
    simp only [noGt, List.all_cons, List.all_append, Bool.and_eq_true]
    refine ⟨by decide, ha.1, by decide, by decide, ?_, by decide⟩
    exact escAttrib_noGt kv.2

theorem collapseWs_copy :
    ∀ x r : List Char, noGt x = true → collapseWs (x ++ r) = x ++ collapseWs r := by
  intro x
  induction x with
  | nil =>
    intro r _
    simp
  | cons c cs ih =>
    intro r hx
    simp only [noGt, List.all_cons, Bool.and_eq_true] at hx
    have hc : ¬ c = '>' := by
      intro h
      rw [h] at hx
      exact absurd hx.1 (by decide)
    rw [List.cons_append, collapseWs_cons_ne c _ hc, ih r hx.2]
    rfl

theorem dropWhile_ws_append {w : List Char} (hw : wsOnly w = true) (v : List Char) :
    (w ++ v).dropWhile isPyWs = v.dropWhile isPyWs := by
  induction w with
  | nil => simp
  | cons c cs ih =>
    simp only [wsOnly, List.all_cons, Bool.and_eq_true] at hw
    rw [List.cons_append, List.dropWhile_cons_of_pos hw.1]
    exact ih hw.2

theorem collapseWs_gap_ws (w r : List Char) (hw : wsOnly w = true) :
    collapseWs ('>' :: (w ++ '<' :: r)) = '>' :: '\n' :: '<' :: collapseWs r := by
  have hd : (w ++ '<' :: r).dropWhile isPyWs = '<' :: r := by
    rw [dropWhile_ws_append hw]
    exact List.dropWhile_cons_of_neg (by decide)
  rw [collapseWs_gt_pos (w ++ '<' :: r) (by rw [hd]; rfl)]
  rw [hd]
  rfl

theorem collapseWs_trailing_ws (w : List Char) (hw : wsOnly w = true) :
    collapseWs ('>' :: w) = '>' :: w := by
  have hd : w.dropWhile isPyWs = [] := by
    rw [List.dropWhile_eq_nil_iff]
    intro c hc
    simp only [wsOnly, List.all_eq_true] at hw
    exact hw c hc
  rw [collapseWs_gt_neg w (by rw [hd]; simp)]
  have := collapseWs_ws_append w [] hw
  rw [List.append_nil] at this
  rw [this, collapseWs_nil, List.append_nil]

theorem dropWhile_append_of_ne_nil {x v : List Char}
    (h : x.dropWhile isPyWs ≠ []) :
    (x ++ v).dropWhile isPyWs = x.dropWhile isPyWs ++ v := by
  induction x with
  | nil => exact absurd rfl h
  | cons c cs ih =>
    by_cases hc : isPyWs c = true
    · rw [List.dropWhile_cons_of_pos hc] at h
      rw [List.cons_append, List.dropWhile_cons_of_pos hc,
        List.dropWhile_cons_of_pos hc]
      exact ih h
    · rw [List.cons_append, List.dropWhile_cons_of_neg hc,
        List.dropWhile_cons_of_neg hc]
      rfl

theorem collapseWs_nogap (x r : List Char) (hx : wsOnly x = false)
    (hcl : x.all (fun d => !(d = '>' || d = '<')) = true) :
    collapseWs ('>' :: (x ++ r)) = '>' :: (x ++ collapseWs r) := by
  have hne : x.dropWhile isPyWs ≠ [] := by
    intro h0
    rw [List.dropWhile_eq_nil_iff] at h0
    have : wsOnly x = true := by
      simp only [wsOnly, List.all_eq_true]
      exact h0
    rw [hx] at this
    exact absurd this (by decide)
  cases hdw : x.dropWhile isPyWs with
  | nil => exact absurd hdw hne
  | cons e es =>
    have hmem : e ∈ x := by
      have hsub := (List.dropWhile_suffix (l := x) isPyWs).sublist.subset
      apply hsub
      rw [hdw]
      exact List.mem_cons_self _ _
    have hne2 : ¬ e = '<' := by
      simp only [List.all_eq_true] at hcl
      have := hcl e hmem
      intro hx2
      rw [hx2] at this
      exact absurd this (by decide)
    have hda : (x ++ r).dropWhile isPyWs = e :: (es ++ r) := by
      rw [dropWhile_append_of_ne_nil hne, hdw]
      rfl
    rw [collapseWs_gt_neg (x ++ r) (by rw [hda]; simp [hne2])]
    rw [collapseWs_copy x r (clean_noGt hcl)]

theorem serElem_head (w : Bool) (e : Element) :
    ∃ x, serElem w e = '<' :: x := by
  obtain ⟨t, a, tx, ch, tl⟩ := e
  show ∃ x, ((if tx = "" && ch.isEmpty then _ else _) ++ escCdata tl) = '<' :: x
  by_cases hshort : (tx = "" && ch.isEmpty) = true
  · rw [if_pos hshort]
    exact ⟨_, rfl⟩
  · rw [if_neg hshort]
    exact ⟨_, rfl⟩

theorem escCdataChar_ws {c : Char} (h : isPyWs c = true) : escCdataChar c = [c] := by
  simp only [isPyWs, Bool.or_eq_true, decide_eq_true_eq] at h
  rcases h with ((((h | h) | h) | h) | h) | h <;> subst h <;> rfl

theorem escCdata_ws {s : String} (h : wsOnly s.data = true) : escCdata s = s.data := by
  obtain ⟨l⟩ := s
  show l.flatMap escCdataChar = l
  induction l with
  | nil => rfl
  | cons c cs ih =>
    simp only [wsOnly, List.all_cons, Bool.and_eq_true] at h
    rw [List.flatMap_cons, escCdataChar_ws h.1, ih h.2]
    rfl

theorem escCdata_empty : escCdata "" = [] := rfl

theorem wsOnly_escCdata {s : String} (h : wsOnly s.data = false) :
    wsOnly (escCdata s) = false := by
  have hex : ∃ c ∈ s.data, ¬ isPyWs c = true := by
    by_contra hno
    push_neg at hno
    have : wsOnly s.data = true := by
      simp only [wsOnly, List.all_eq_true]
      exact fun c hc => hno c hc
    rw [h] at this
    exact absurd this (by decide)
  obtain ⟨c, hc, hnws⟩ := hex
  have hd : ∃ d ∈ escCdataChar c, ¬ isPyWs d = true := by
    unfold escCdataChar
    split_ifs with h1 h2 h3
    · exact ⟨'&', by decide, by decide⟩
    · exact ⟨'&', by decide, by decide⟩
    · exact ⟨'&', by decide, by decide⟩
    · exact ⟨c, List.mem_cons_self _ _, hnws⟩
  obtain ⟨d, hdmem, hdws⟩ := hd
  have hmem : d ∈ escCdata s := by
    unfold escCdata
    exact List.mem_flatMap.mpr ⟨c, hc, hdmem⟩
  by_contra hcon
  have hall : wsOnly (escCdata s) = true := by
    cases hw : wsOnly (escCdata s) with
    | false => exact absurd hw hcon
    | true => rfl
  simp only [wsOnly, List.all_eq_true] at hall
  exact hdws (hall d hmem)

theorem xmlnsPart_noGt (w : Bool) :
    noGt (if w = true
      then ' ' :: 'x' :: 'm' :: 'l' :: 'n' :: 's' :: '=' :: '"'
        :: (SVG_NS.data ++ ['"'])
      else []) = true := by
  cases w
  · rfl
  · decide

theorem collapseWs_cdata_gap (s : String) (r : List Char) :
    collapseWs ('>' :: (escCdata s ++ '<' :: r))
      = '>' :: (escCdata (if wsOnly s.data then "\n" else s) ++ '<' :: collapseWs r) := by
  by_cases hws : wsOnly s.data = true
  · rw [if_pos hws, escCdata_ws hws, collapseWs_gap_ws s.data r hws]
    rfl
  · rw [if_neg hws]
    have hx : wsOnly (escCdata s) = false :=
      wsOnly_escCdata (by
        cases hw : wsOnly s.data with
        | false => rfl
        | true => exact absurd hw hws)
    rw [collapseWs_nogap (escCdata s) ('<' :: r) hx (escCdata_clean s),
      collapseWs_cons_ne '<' r (by decide)]

theorem collapseWs_closeTag (T : List Char) (hT : noGt T = true)
    (tl : String) (k : List Char) :
    collapseWs ('/' :: (T ++ '>' :: (escCdata tl ++ '<' :: k)))
      = '/' :: (T ++ '>' :: (escCdata (if wsOnly tl.data then "\n" else tl)
          ++ '<' :: collapseWs k)) := by
  rw [collapseWs_cons_ne '/' _ (by decide), collapseWs_copy T _ hT,
    collapseWs_cdata_gap tl k]

theorem collapseWs_closeEnd (T : List Char) (hT : noGt T = true)
    (tl : String) (htl : wsOnly tl.data = true) :
    collapseWs ('/' :: (T ++ '>' :: escCdata tl))
      = '/' :: (T ++ '>' :: tl.data) := by
  rw [collapseWs_cons_ne '/' _ (by decide), collapseWs_copy T _ hT,
    escCdata_ws htl, collapseWs_trailing_ws tl.data htl]

theorem pyStripL_append_ws {B w : List Char} (hw : wsOnly w = true)
    (hhead : ∃ y, B = '<' :: y) (hlast : ∃ z, B = z ++ ['>']) :
    pyStripL (B ++ w) = B := by
  obtain ⟨y, hy⟩ := hhead
  obtain ⟨z, hz⟩ := hlast
  unfold pyStripL
  have h1 : (B ++ w).dropWhile isPyWs = B ++ w := by
    rw [hy, List.cons_append]
    exact List.dropWhile_cons_of_neg (by decide)
  rw [h1, List.reverse_append]
  have hwrev : wsOnly w.reverse = true := by
    simp only [wsOnly, List.all_eq_true] at hw ⊢
    exact fun c hc => hw c (List.mem_reverse.mp hc)
  rw [dropWhile_ws_append hwrev B.reverse]
  have h3 : B.reverse.dropWhile isPyWs = B.reverse := by
    rw [hz, List.reverse_append]
    exact List.dropWhile_cons_of_neg (by decide)
  rw [h3, List.reverse_reverse]

mutual
/-- Core of the idempotence argument: collapsing the serialized stream of one
non-root element followed by an opening bracket rewrites it into the
serialization of its reparsed form, with collapsing continuing after the
bracket. -/
theorem collapseWs_serElem :
    ∀ e : Element, wfElem e = true → ∀ (w : Bool) (k : List Char),
      collapseWs (serElem w e ++ '<' :: k)
        = serElem w (reparseChild e) ++ '<' :: collapseWs k
  | .mk t a tx ch tl => by
    intro hwf w k
    simp only [wfElem, Bool.and_eq_true] at hwf
    obtain ⟨⟨hT, hA⟩, hCH⟩ := hwf
    by_cases hshort : (tx = "" && ch.isEmpty) = true
    · simp only [Bool.and_eq_true, decide_eq_true_eq, List.isEmpty_iff] at hshort
      obtain ⟨htx, hch⟩ := hshort
      subst htx
      subst hch
      show collapseWs ((('<' :: (serTagName t
            ++ (if w = true then (" xmlns=\"").data ++ SVG_NS.data ++ ['"'] else [])
            ++ serAttrs a) ++ (" />").data) ++ escCdata tl) ++ '<' :: k)
          = (('<' :: (serTagName t
            ++ (if w = true then (" xmlns=\"").data ++ SVG_NS.data ++ ['"'] else [])
            ++ serAttrs a) ++ (" />").data)
              ++ escCdata (if wsOnly tl.data then "\n" else tl)) ++ '<' :: collapseWs k
      simp only [List.cons_append, List.append_assoc, List.nil_append]
      rw [collapseWs_cons_ne '<' _ (by decide),
        collapseWs_copy (serTagName t) _ hT,
        collapseWs_copy _ _ (xmlnsPart_noGt w),
        collapseWs_copy (serAttrs a) _ (serAttrs_noGt hA),
        collapseWs_cons_ne ' ' _ (by decide),
        collapseWs_cons_ne '/' _ (by decide),
        collapseWs_cdata_gap tl k]
    · have htx1 : ¬ (if wsOnly tx.data then "\n" else tx) = "" := by
        by_cases hws : wsOnly tx.data = true
        · rw [if_pos hws]
          decide
        · rw [if_neg hws]
          intro hcon
          subst hcon
          exact hws rfl
      have hshort2 : ¬ ((if wsOnly tx.data then "\n" else tx) = ""
          && (reparseChildList ch).isEmpty) = true := by
        intro hcon
        simp only [Bool.and_eq_true, decide_eq_true_eq] at hcon
        exact htx1 hcon.1
      simp only [serElem, reparseChild, if_neg hshort, if_neg hshort2]
      cases ch with
      | nil =>
        simp only [serList, reparseChildList, List.cons_append, List.append_assoc,
          List.nil_append]
        rw [collapseWs_cons_ne '<' _ (by decide),
          collapseWs_copy (serTagName t) _ hT,
          collapseWs_copy _ _ (xmlnsPart_noGt w),
          collapseWs_copy (serAttrs a) _ (serAttrs_noGt hA),
          collapseWs_cdata_gap tx _,
          collapseWs_closeTag (serTagName t) hT tl k]
      | cons c cs =>
        obtain ⟨x, hx⟩ := serElem_head false c
        have hser : serList (c :: cs) = '<' :: (x ++ serList cs) := by
          show serElem false c ++ serList cs = _
          rw [hx, List.cons_append]
        rw [hser]
        simp only [List.cons_append, List.append_assoc, List.nil_append]
        have h2 : '<' :: collapseWs (x ++ (serList cs
              ++ '<' :: '/' :: (serTagName t ++ '>' :: (escCdata tl ++ '<' :: k))))
            = serList (reparseChildList (c :: cs))
              ++ '<' :: '/' :: (serTagName t
                ++ '>' :: (escCdata (if wsOnly tl.data then "\n" else tl)
                  ++ '<' :: collapseWs k)) := by
          have h3 := collapseWs_serList (c :: cs) hCH
            ('/' :: (serTagName t ++ '>' :: (escCdata tl ++ '<' :: k)))
          rw [hser] at h3
          simp only [List.cons_append, List.append_assoc, List.nil_append] at h3
          rw [collapseWs_closeTag (serTagName t) hT tl k] at h3
          rw [collapseWs_cons_ne '<' _ (by decide)] at h3
          exact h3
        rw [collapseWs_cons_ne '<' _ (by decide),
          collapseWs_copy (serTagName t) _ hT,
          collapseWs_copy _ _ (xmlnsPart_noGt w),
          collapseWs_copy (serAttrs a) _ (serAttrs_noGt hA),
          collapseWs_cdata_gap tx _, h2]

theorem collapseWs_serList :
    ∀ l : List Element, wfElemList l = true → ∀ k : List Char,
      collapseWs (serList l ++ '<' :: k)
        = serList (reparseChildList l) ++ '<' :: collapseWs k
  | [] => by
    intro _ k
    simp only [serList, reparseChildList, List.nil_append]
    exact collapseWs_cons_ne '<' k (by decide)
  | c :: cs => by
    intro hwf k
    simp only [wfElemList, Bool.and_eq_true] at hwf
    cases cs with
    | nil =>
      show collapseWs ((serElem false c ++ serList []) ++ '<' :: k)
        = (serElem false (reparseChild c) ++ serList (reparseChildList []))
            ++ '<' :: collapseWs k
      simp only [serList, List.append_nil]
      exact collapseWs_serElem c hwf.1 false k
    | cons c2 cs2 =>
      show collapseWs ((serElem false c ++ serList (c2 :: cs2)) ++ '<' :: k)
        = (serElem false (reparseChild c)
            ++ serList (reparseChildList (c2 :: cs2))) ++ '<' :: collapseWs k
      obtain ⟨x, hx⟩ := serElem_head false c2
      have hser : serList (c2 :: cs2) = '<' :: (x ++ serList cs2) := by
        show serElem false c2 ++ serList cs2 = _
        rw [hx, List.cons_append]
      rw [List.append_assoc, hser, List.cons_append,
        collapseWs_serElem c hwf.1 false ((x ++ serList cs2) ++ '<' :: k)]
      have h2 : '<' :: collapseWs ((x ++ serList cs2) ++ '<' :: k)
          = serList (reparseChildList (c2 :: cs2)) ++ '<' :: collapseWs k := by
        rw [← collapseWs_cons_ne '<' _ (by decide), ← List.cons_append, ← hser]
        exact collapseWs_serList (c2 :: cs2) hwf.2 k
      rw [h2, List.append_assoc]
end

theorem reparseRoot_tail (e : Element) : (reparseRoot e).tail = "" := by
  cases e
  rfl

/-- Root-level form of the stream analysis: canonicalizing (collapsing plus
stripping) the serialized root rewrites it into the serialization of its
reparsed-root form, whose whitespace-only tail has been stripped away. -/
theorem canonicalizeWs_serRoot (w : Bool) (e : Element) (hwf : wfElem e = true)
    (htl : wsOnly (Element.tail e).data = true) :
    canonicalizeWs (serElem w e) = serElem w (reparseRoot e) := by
  obtain ⟨t, a, tx, ch, tl⟩ := e
  simp only [wfElem, Bool.and_eq_true] at hwf
  obtain ⟨⟨hT, hA⟩, hCH⟩ := hwf
  have htl2 : wsOnly tl.data = true := htl
  by_cases hshort : (tx = "" && ch.isEmpty) = true
  · simp only [Bool.and_eq_true, decide_eq_true_eq, List.isEmpty_iff] at hshort
    obtain ⟨htx, hch⟩ := hshort
    subst htx
    subst hch
    show pyStripL (collapseWs (('<' :: (serTagName t
          ++ (if w = true then (" xmlns=\"").data ++ SVG_NS.data ++ ['"'] else [])
          ++ serAttrs a) ++ (" />").data) ++ escCdata tl))
        = ('<' :: (serTagName t
          ++ (if w = true then (" xmlns=\"").data ++ SVG_NS.data ++ ['"'] else [])
          ++ serAttrs a) ++ (" />").data) ++ escCdata ""
    rw [escCdata_empty, List.append_nil, escCdata_ws htl2]
    have hcol : collapseWs (('<' :: (serTagName t
          ++ (if w = true then (" xmlns=\"").data ++ SVG_NS.data ++ ['"'] else [])
          ++ serAttrs a) ++ (" />").data) ++ tl.data)
        = ('<' :: (serTagName t
          ++ (if w = true then (" xmlns=\"").data ++ SVG_NS.data ++ ['"'] else [])
          ++ serAttrs a) ++ (" />").data) ++ tl.data := by
      simp only [List.cons_append, List.append_assoc, List.nil_append]
      rw [collapseWs_cons_ne '<' _ (by decide),
        collapseWs_copy (serTagName t) _ hT,
        collapseWs_copy _ _ (xmlnsPart_noGt w),
        collapseWs_copy (serAttrs a) _ (serAttrs_noGt hA),
        collapseWs_cons_ne ' ' _ (by decide),
        collapseWs_cons_ne '/' _ (by decide),
        collapseWs_trailing_ws tl.data htl2]
    rw [hcol]
    refine pyStripL_append_ws htl2 ⟨_, rfl⟩
      ⟨'<' :: (serTagName t
          ++ (if w = true then (" xmlns=\"").data ++ SVG_NS.data ++ ['"'] else [])
          ++ serAttrs a) ++ [' ', '/'], ?_⟩
    simp only [List.append_assoc]
    rfl
  · have htx1 : ¬ (if wsOnly tx.data then "\n" else tx) = "" := by
      by_cases hws : wsOnly tx.data = true
      · rw [if_pos hws]
        decide
      · rw [if_neg hws]
        intro hcon
        subst hcon
        exact hws rfl
    have hshort2 : ¬ ((if wsOnly tx.data then "\n" else tx) = ""
        && (reparseChildList ch).isEmpty) = true := by
      intro hcon
      simp only [Bool.and_eq_true, decide_eq_true_eq] at hcon
      exact htx1 hcon.1
    show pyStripL (collapseWs (serElem w (Element.mk t a tx ch tl)))
        = serElem w (reparseRoot (Element.mk t a tx ch tl))
    simp only [serElem, reparseRoot, if_neg hshort, if_neg hshort2]
    rw [escCdata_empty, List.append_nil]
    cases ch with
    | nil =>
      simp only [serList, reparseChildList, List.cons_append, List.append_assoc,
        List.nil_append]
      rw [collapseWs_cons_ne '<' _ (by decide),
        collapseWs_copy (serTagName t) _ hT,
        collapseWs_copy _ _ (xmlnsPart_noGt w),
        collapseWs_copy (serAttrs a) _ (serAttrs_noGt hA),
        collapseWs_cdata_gap tx _,
        collapseWs_closeEnd (serTagName t) hT tl htl2]
      have hsplit : '<' :: (serTagName t
            ++ ((if w = true then ' ' :: 'x' :: 'm' :: 'l' :: 'n' :: 's' :: '=' :: '"' :: (SVG_NS.data ++ ['"']) else [])
            ++ (serAttrs a ++ '>' :: (escCdata (if wsOnly tx.data then "\n" else tx)
              ++ '<' :: '/' :: (serTagName t ++ '>' :: tl.data)))))
          = ('<' :: (serTagName t
            ++ ((if w = true then ' ' :: 'x' :: 'm' :: 'l' :: 'n' :: 's' :: '=' :: '"' :: (SVG_NS.data ++ ['"']) else [])
            ++ (serAttrs a ++ '>' :: (escCdata (if wsOnly tx.data then "\n" else tx)
              ++ '<' :: '/' :: (serTagName t ++ ['>'])))))) ++ tl.data := by
        simp only [List.cons_append, List.append_assoc, List.nil_append]
      rw [hsplit]
      exact pyStripL_append_ws htl2 ⟨_, rfl⟩
        ⟨'<' :: (serTagName t
            ++ ((if w = true then ' ' :: 'x' :: 'm' :: 'l' :: 'n' :: 's' :: '=' :: '"' :: (SVG_NS.data ++ ['"']) else [])
            ++ (serAttrs a ++ '>' :: (escCdata (if wsOnly tx.data then "\n" else tx)
              ++ '<' :: '/' :: serTagName t)))), by
          simp only [List.cons_append, List.append_assoc, List.nil_append]⟩
    | cons c cs =>
      obtain ⟨x, hx⟩ := serElem_head false c
      have hser : serList (c :: cs) = '<' :: (x ++ serList cs) := by
        show serElem false c ++ serList cs = _
        rw [hx, List.cons_append]
      rw [hser]
      simp only [List.cons_append, List.append_assoc, List.nil_append]
      have h2 : '<' :: collapseWs (x ++ (serList cs
            ++ '<' :: '/' :: (serTagName t ++ '>' :: escCdata tl)))
          = serList (reparseChildList (c :: cs))
            ++ '<' :: '/' :: (serTagName t ++ '>' :: tl.data) := by
        have h3 := collapseWs_serList (c :: cs) hCH
          ('/' :: (serTagName t ++ '>' :: escCdata tl))
        rw [hser] at h3
        simp only [List.cons_append, List.append_assoc, List.nil_append] at h3
        rw [collapseWs_closeEnd (serTagName t) hT tl htl2] at h3
        rw [collapseWs_cons_ne '<' _ (by decide)] at h3
        exact h3
      rw [collapseWs_cons_ne '<' _ (by decide),
        collapseWs_copy (serTagName t) _ hT,
        collapseWs_copy _ _ (xmlnsPart_noGt w),
        collapseWs_copy (serAttrs a) _ (serAttrs_noGt hA),
        collapseWs_cdata_gap tx _, h2]
      have hsplit : '<' :: (serTagName t
            ++ ((if w = true then ' ' :: 'x' :: 'm' :: 'l' :: 'n' :: 's' :: '=' :: '"' :: (SVG_NS.data ++ ['"']) else [])
            ++ (serAttrs a ++ '>' :: (escCdata (if wsOnly tx.data then "\n" else tx)
              ++ (serList (reparseChildList (c :: cs))
                ++ '<' :: '/' :: (serTagName t ++ '>' :: tl.data))))))
          = ('<' :: (serTagName t
            ++ ((if w = true then ' ' :: 'x' :: 'm' :: 'l' :: 'n' :: 's' :: '=' :: '"' :: (SVG_NS.data ++ ['"']) else [])
            ++ (serAttrs a ++ '>' :: (escCdata (if wsOnly tx.data then "\n" else tx)
              ++ (serList (reparseChildList (c :: cs))
                ++ '<' :: '/' :: (serTagName t ++ ['>']))))))) ++ tl.data := by
        simp only [List.cons_append, List.append_assoc, List.nil_append]
      rw [hsplit]
      exact pyStripL_append_ws htl2 ⟨_, rfl⟩
        ⟨'<' :: (serTagName t
            ++ ((if w = true then ' ' :: 'x' :: 'm' :: 'l' :: 'n' :: 's' :: '=' :: '"' :: (SVG_NS.data ++ ['"']) else [])
            ++ (serAttrs a ++ '>' :: (escCdata (if wsOnly tx.data then "\n" else tx)
              ++ (serList (reparseChildList (c :: cs))
                ++ '<' :: '/' :: serTagName t))))), by
          simp only [List.cons_append, List.append_assoc, List.nil_append]⟩

theorem reparseChild_tag (c : Element) : (reparseChild c).tag = c.tag := by
  cases c
  rfl

mutual
theorem removeMeta_id : ∀ e : Element, noMetaBelow e = true → removeMeta e = e
  | .mk t a tx ch tl => fun h => by
    simp only [removeMeta]
    rw [removeMetaList_id ch h]

theorem removeMetaList_id :
    ∀ l : List Element, noMetaBelowList l = true → removeMetaList l = l
  | [] => fun _ => rfl
  | c :: cs => fun h => by
    simp only [noMetaBelowList, Bool.and_eq_true, Bool.not_eq_true'] at h
    simp only [removeMetaList,
      if_neg (show ¬ META_TAGS.contains (strip_ns c.tag) = true by
        rw [h.1.1]
        decide)]
    rw [removeMeta_id c h.1.2, removeMetaList_id cs h.2]
end

mutual
theorem noMetaBelow_reparseChild :
    ∀ e : Element, noMetaBelow (reparseChild e) = noMetaBelow e
  | .mk t a tx ch tl => noMetaBelowList_reparseChildList ch

theorem noMetaBelowList_reparseChildList :
    ∀ l : List Element, noMetaBelowList (reparseChildList l) = noMetaBelowList l
  | [] => rfl
  | c :: cs => by
    simp only [reparseChildList, noMetaBelowList, reparseChild_tag,
      noMetaBelow_reparseChild c, noMetaBelowList_reparseChildList cs]
end

theorem noMetaBelow_reparseRoot (e : Element) :
    noMetaBelow (reparseRoot e) = noMetaBelow e := by
  cases e with
  | mk t a tx ch tl => exact noMetaBelowList_reparseChildList ch

theorem noMetaBelow_normalizeTree (t : Element) :
    noMetaBelow (normalizeTree t) = true := by
  rw [normalizeTree, noMetaBelow_cleanTree]
  have hreb : noMetaBelow (rebuildRootAttrib (removeMeta t))
      = noMetaBelow (removeMeta t) := by
    cases hroot : removeMeta t
    rfl
  rw [hreb]
  exact noMetaBelow_removeMeta t

theorem cleanAttrs_idem (l : List (String × String)) :
    cleanAttrs (cleanAttrs l) = cleanAttrs l := by
  show (l.filter keepAttr).filter keepAttr = l.filter keepAttr
  induction l with
  | nil => rfl
  | cons kv rest ih =>
    by_cases h : keepAttr kv = true
    · rw [List.filter_cons_of_pos h, List.filter_cons_of_pos h, ih]
    · rw [List.filter_cons_of_neg h]
      exact ih

mutual
theorem cleanTree_reparse :
    ∀ c : Element, cleanTree (reparseChild (cleanTree c)) = reparseChild (cleanTree c)
  | .mk t a tx ch tl => by
    simp only [cleanTree, reparseChild]
    rw [cleanAttrs_idem, cleanTreeList_reparse ch]

theorem cleanTreeList_reparse :
    ∀ l : List Element,
      cleanTreeList (reparseChildList (cleanTreeList l))
        = reparseChildList (cleanTreeList l)
  | [] => rfl
  | c :: cs => by
    simp only [cleanTreeList, reparseChildList]
    rw [cleanTree_reparse c, cleanTreeList_reparse cs]
end

theorem keptViewBox_rootAttrs (vb : String) (h : ¬ vb = "") :
    keptViewBox (rootAttrs vb) = vb := by
  show (if vb = "" then "0 0 16 16" else vb) = vb
  rw [if_neg h]

theorem keptViewBox_ne (a : List (String × String)) : ¬ keptViewBox a = "" := by
  unfold keptViewBox
  cases h : List.lookup "viewBox" a with
  | none => decide
  | some v =>
    show ¬ (if v = "" then "0 0 16 16" else v) = ""
    by_cases hv : v = ""
    · rw [if_pos hv]
      decide
    · rw [if_neg hv]
      exact hv

theorem cleanAttrs_rootAttrs (vb : String) :
    cleanAttrs (rootAttrs vb) = rootAttrs vb := rfl

theorem rootAttrs_names (vb : String) :
    (rootAttrs vb).all (fun kv => noGt kv.1.data) = true := rfl

theorem all_filter_of_all {p q : String × String → Bool}
    {l : List (String × String)} (h : l.all p = true) :
    (l.filter q).all p = true := by
  simp only [List.all_eq_true] at h ⊢
  intro a ha
  exact h a (List.mem_of_mem_filter ha)

mutual
theorem wf_cleanTree : ∀ e : Element, wfElem e = true → wfElem (cleanTree e) = true
  | .mk t a tx ch tl => fun h => by
    simp only [wfElem, Bool.and_eq_true] at h
    simp only [cleanTree, wfElem, Bool.and_eq_true]
    exact ⟨⟨h.1.1, all_filter_of_all h.1.2⟩, wf_cleanTreeList ch h.2⟩

theorem wf_cleanTreeList :
    ∀ l : List Element, wfElemList l = true → wfElemList (cleanTreeList l) = true
  | [] => fun _ => rfl
  | c :: cs => fun h => by
    simp only [wfElemList, Bool.and_eq_true] at h
    simp only [cleanTreeList, wfElemList, Bool.and_eq_true]
    exact ⟨wf_cleanTree c h.1, wf_cleanTreeList cs h.2⟩
end

mutual
theorem wf_removeMeta : ∀ e : Element, wfElem e = true → wfElem (removeMeta e) = true
  | .mk t a tx ch tl => fun h => by
    simp only [wfElem, Bool.and_eq_true] at h
    simp only [removeMeta, wfElem, Bool.and_eq_true]
    exact ⟨h.1, wf_removeMetaList ch h.2⟩

theorem wf_removeMetaList :
    ∀ l : List Element, wfElemList l = true → wfElemList (removeMetaList l) = true
  | [] => fun _ => rfl
  | c :: cs => fun h => by
    simp only [wfElemList, Bool.and_eq_true] at h
    by_cases hc : META_TAGS.contains (strip_ns c.tag) = true
    · simp only [removeMetaList, if_pos hc]
      exact wf_removeMetaList cs h.2
    · simp only [removeMetaList, if_neg hc, wfElemList, Bool.and_eq_true]
      exact ⟨wf_removeMeta c h.1, wf_removeMetaList cs h.2⟩
end

theorem wf_rebuildRootAttrib {e : Element} (h : wfElem e = true) :
    wfElem (rebuildRootAttrib e) = true := by
  obtain ⟨t, a, tx, ch, tl⟩ := e
  simp only [wfElem, Bool.and_eq_true] at h
  simp only [rebuildRootAttrib, Element.tag, Element.attrib, Element.text,
    Element.children, Element.tail, wfElem, Bool.and_eq_true]
  exact ⟨⟨h.1.1, rootAttrs_names _⟩, h.2⟩

theorem wf_normalizeTree {t : Element} (h : wfElem t = true) :
    wfElem (normalizeTree t) = true :=
  wf_cleanTree _ (wf_rebuildRootAttrib (wf_removeMeta t h))

mutual
theorem wf_reparseChild : ∀ e : Element, wfElem (reparseChild e) = wfElem e
  | .mk t a tx ch tl => by
    simp only [reparseChild, wfElem, wf_reparseChildList ch]

theorem wf_reparseChildList :
    ∀ l : List Element, wfElemList (reparseChildList l) = wfElemList l
  | [] => rfl
  | c :: cs => by
    simp only [reparseChildList, wfElemList, wf_reparseChild c,
      wf_reparseChildList cs]
end

theorem wf_reparseRoot {e : Element} (h : wfElem e = true) :
    wfElem (reparseRoot e) = true := by
  obtain ⟨t, a, tx, ch, tl⟩ := e
  simp only [wfElem, Bool.and_eq_true] at h
  simp only [reparseRoot, wfElem, Bool.and_eq_true, wf_reparseChildList ch]
  exact h

mutual
theorem anyNs_reparseChild : ∀ e : Element, anyNsElem (reparseChild e) = anyNsElem e
  | .mk t a tx ch tl => by
    simp only [reparseChild, anyNsElem, anyNsList_reparseChildList ch]

theorem anyNsList_reparseChildList :
    ∀ l : List Element, anyNsList (reparseChildList l) = anyNsList l
  | [] => rfl
  | c :: cs => by
    simp only [reparseChildList, anyNsList, anyNs_reparseChild c,
      anyNsList_reparseChildList cs]
end

theorem anyNs_reparseRoot (e : Element) :
    anyNsElem (reparseRoot e) = anyNsElem e := by
  cases e with
  | mk t a tx ch tl =>
    simp only [reparseRoot, anyNsElem, anyNsList_reparseChildList ch]

theorem reparseTail_fix (tl : String) :
    (if wsOnly (if wsOnly tl.data then "\n" else tl).data then "\n"
      else if wsOnly tl.data then "\n" else tl)
    = (if wsOnly tl.data then "\n" else tl) := by
  by_cases hws : wsOnly tl.data = true
  · rw [if_pos hws]
    decide
  · rw [if_neg hws, if_neg hws]

mutual
theorem reparseChild_idem :
    ∀ c : Element, reparseChild (reparseChild c) = reparseChild c
  | .mk t a tx ch tl => by
    by_cases hshort : (tx = "" && ch.isEmpty) = true
    · obtain ⟨htx, hch⟩ : tx = "" ∧ ch = [] := by
        simpa only [Bool.and_eq_true, decide_eq_true_eq, List.isEmpty_iff]
          using hshort
      subst htx
      subst hch
      exact congrArg (Element.mk t a "" []) (reparseTail_fix tl)
    · have htx1 : ¬ (if wsOnly tx.data then "\n" else tx) = "" := by
        by_cases hws : wsOnly tx.data = true
        · rw [if_pos hws]
          decide
        · rw [if_neg hws]
          intro hcon
          subst hcon
          exact hws rfl
      have hshort2 : ¬ ((if wsOnly tx.data then "\n" else tx) = ""
          && (reparseChildList ch).isEmpty) = true := by
        intro hcon
        simp only [Bool.and_eq_true, decide_eq_true_eq] at hcon
        exact htx1 hcon.1
      simp only [reparseChild, if_neg hshort, if_neg hshort2]
      have h1 : (if wsOnly (if wsOnly tx.data then "\n" else tx).data then "\n"
          else if wsOnly tx.data then "\n" else tx)
          = (if wsOnly tx.data then "\n" else tx) := by
        by_cases hws : wsOnly tx.data = true
        · rw [if_pos hws]
          decide
        · rw [if_neg hws, if_neg hws]
      rw [h1, reparseTail_fix tl, reparseChildList_idem ch]

theorem reparseChildList_idem :
    ∀ l : List Element, reparseChildList (reparseChildList l) = reparseChildList l
  | [] => rfl
  | c :: cs => by
    simp only [reparseChildList]
    rw [reparseChild_idem c, reparseChildList_idem cs]
end

theorem reparseRoot_reparseRoot (e : Element) :
    reparseRoot (reparseRoot e) = reparseRoot e := by
  obtain ⟨t, a, tx, ch, tl⟩ := e
  by_cases hshort : (tx = "" && ch.isEmpty) = true
  · obtain ⟨htx, hch⟩ : tx = "" ∧ ch = [] := by
      simpa only [Bool.and_eq_true, decide_eq_true_eq, List.isEmpty_iff]
        using hshort
    subst htx
    subst hch
    rfl
  · have htx1 : ¬ (if wsOnly tx.data then "\n" else tx) = "" := by
      by_cases hws : wsOnly tx.data = true
      · rw [if_pos hws]
        decide
      · rw [if_neg hws]
        intro hcon
        subst hcon
        exact hws rfl
    have hshort2 : ¬ ((if wsOnly tx.data then "\n" else tx) = ""
        && (reparseChildList ch).isEmpty) = true := by
      intro hcon
      simp only [Bool.and_eq_true, decide_eq_true_eq] at hcon
      exact htx1 hcon.1
    simp only [reparseRoot, if_neg hshort, if_neg hshort2]
    have h1 : (if wsOnly (if wsOnly tx.data then "\n" else tx).data then "\n"
        else if wsOnly tx.data then "\n" else tx)
        = (if wsOnly tx.data then "\n" else tx) := by
      by_cases hws : wsOnly tx.data = true
      · rw [if_pos hws]
        decide
      · rw [if_neg hws, if_neg hws]
    rw [h1, reparseChildList_idem ch]

theorem normalizeTree_tail (t : Element) :
    (normalizeTree t).tail = t.tail := by
  cases t
  rfl

theorem cleanTree_rebuild_fix (tg vb tx2 : String) (l : List Element)
    (hvb : ¬ vb = "") :
    cleanTree (rebuildRootAttrib (Element.mk tg (rootAttrs vb) tx2
        (reparseChildList (cleanTreeList l)) ""))
      = Element.mk tg (rootAttrs vb) tx2 (reparseChildList (cleanTreeList l)) "" := by
  show Element.mk tg (cleanAttrs (rootAttrs (keptViewBox (rootAttrs vb)))) tx2
      (cleanTreeList (reparseChildList (cleanTreeList l))) ""
    = Element.mk tg (rootAttrs vb) tx2 (reparseChildList (cleanTreeList l)) ""
  rw [keptViewBox_rootAttrs vb hvb, cleanAttrs_rootAttrs, cleanTreeList_reparse l]

theorem normalizeTree_fix (t : Element) :
    normalizeTree (reparseRoot (normalizeTree t)) = reparseRoot (normalizeTree t) := by
  have hnm : noMetaBelow (reparseRoot (normalizeTree t)) = true := by
    rw [noMetaBelow_reparseRoot]
    exact noMetaBelow_normalizeTree t
  show cleanTree (rebuildRootAttrib (removeMeta (reparseRoot (normalizeTree t))))
    = reparseRoot (normalizeTree t)
  rw [removeMeta_id _ hnm]
  cases hrm : removeMeta t with
  | mk tg a0 tx0 ch0 tl0 =>
    have hX : reparseRoot (normalizeTree t)
        = Element.mk tg (rootAttrs (keptViewBox a0))
          (if (tx0 = "" && (cleanTreeList ch0).isEmpty) = true then ""
            else if wsOnly tx0.data then "\n" else tx0)
          (reparseChildList (cleanTreeList ch0)) "" := by
      show reparseRoot (cleanTree (rebuildRootAttrib (removeMeta t))) = _
      rw [hrm]
      show Element.mk tg (cleanAttrs (rootAttrs (keptViewBox a0)))
          (if (tx0 = "" && (cleanTreeList ch0).isEmpty) = true then ""
            else if wsOnly tx0.data then "\n" else tx0)
          (reparseChildList (cleanTreeList ch0)) "" = _
      rw [cleanAttrs_rootAttrs]
    rw [hX, cleanTree_rebuild_fix tg (keptViewBox a0) _ ch0 (keptViewBox_ne a0)]

/-- C4: normalize_svg is idempotent.  For a well-formed input x — one the XML
library parses into a tree whose serialized tag and attribute names contain
no closing angle bracket and whose root tail is whitespace — and with the
library's reparse of the canonical output modelled by the final hypothesis
(spec-modelled, as parsing is library code), running normalize_svg again on
the output of normalize_svg x returns exactly that output. -/
theorem normalize_svg_idempotent (parse : String → Except String Element)
    (x : String) (t : Element)
    (hx : parse x = Except.ok t)
    (hwf : wfElem t = true)
    (htail : wsOnly (Element.tail t).data = true)
    (hre : parse (String.mk (canonicalizeWs (serTop (normalizeTree t))))
      = Except.ok (reparseRoot (normalizeTree t))) :
    ∀ out : String, normalize_svg parse x = Except.ok out →
      normalize_svg parse out = Except.ok out := by
  intro out hout
  unfold normalize_svg at hout
  rw [hx] at hout
  injection hout with hout
  subst hout
  unfold normalize_svg
  rw [hre]
  show Except.ok (String.mk (canonicalizeWs (serTop
      (normalizeTree (reparseRoot (normalizeTree t))))))
    = Except.ok (String.mk (canonicalizeWs (serTop (normalizeTree t))))
  rw [normalizeTree_fix t]
  have hwfNT : wfElem (normalizeTree t) = true := wf_normalizeTree hwf
  have hwfu : wfElem (reparseRoot (normalizeTree t)) = true := wf_reparseRoot hwfNT
  have htailNT : wsOnly (Element.tail (normalizeTree t)).data = true := by
    rw [normalizeTree_tail]
    exact htail
  have htailu : wsOnly (Element.tail (reparseRoot (normalizeTree t))).data = true := by
    rw [reparseRoot_tail]
    rfl
  unfold serTop
  rw [canonicalizeWs_serRoot _ _ hwfu htailu,
    canonicalizeWs_serRoot _ _ hwfNT htailNT,
    reparseRoot_reparseRoot, anyNs_reparseRoot]

/-- Witness for C4 at a concrete input: a parse function returning a fixed
already-normalized tree, for which the second normalize_svg run returns the
first run's output unchanged. -/
theorem normalize_svg_idempotent_witness :
    normalize_svg
      (fun _ => Except.ok (Element.mk "svg" (rootAttrs "0 0 16 16") "" [] ""))
      (String.mk (canonicalizeWs (serTop (normalizeTree
        (Element.mk "svg" (rootAttrs "0 0 16 16") "" [] "")))))
    = Except.ok (String.mk (canonicalizeWs (serTop (normalizeTree
        (Element.mk "svg" (rootAttrs "0 0 16 16") "" [] ""))))) :=
  normalize_svg_idempotent
    (fun _ => Except.ok (Element.mk "svg" (rootAttrs "0 0 16 16") "" [] ""))
    "x" (Element.mk "svg" (rootAttrs "0 0 16 16") "" [] "")
    (by rfl) (by rfl) (by rfl) (by rfl)
    (String.mk (canonicalizeWs (serTop (normalizeTree
      (Element.mk "svg" (rootAttrs "0 0 16 16") "" [] "")))))
    (by rfl)

end NormalizeIcons
